import Mathlib

/-!
# NUT configuration layer and driver controller

A shallow embedding of

* `drivers/upsdrvctl.c` (the UPS driver controller): the UPS table built by
  `do_upsconf_args`, the startup timer of `forkexec`, the walks of
  `send_all_drivers` and `send_one_driver`, and the argument vectors of
  `start_driver` and `shutdown_driver`;
* the `nutconf` tokenizer, generic configuration parser, store and
  `UpsmonConfiguration` projection that `tests/nutconf.cpp` exercises.  The
  implementation of `nutconf` is not part of the available sources (only its
  unit test is), so these definitions are modelled from the specification and
  checked against the assertions of the unit test.

Character sequences are `List Char`; a cursor over an input is the list of the
characters that remain to be read.  A C `int` is an `Int` kept within 32 bits by
`wrapInt`, an `unsigned int` a `Nat` below `2^32`, and the bytes of a C string
are a `List Nat`.
-/

namespace nut

/-! ## Tokenizer -/

/-- Modelled from the spec: the token kinds of `NutParser::Token` (the class is
declared in `nutconf.h`, which is missing); names as used by `tests/nutconf.cpp`. -/
inductive TokenType
  | TOKEN_STRING
  | TOKEN_QUOTED_STRING
  | TOKEN_COMMENT
  | TOKEN_BRACKET_OPEN
  | TOKEN_BRACKET_CLOSE
  | TOKEN_EQUAL
  | TOKEN_EOL
  deriving DecidableEq, Repr, Inhabited

/-- Modelled from the spec: `NutParser::Token` (missing `nutconf.h`), a kind and
its text; equality is structural. -/
structure Token where
  type : TokenType
  str : List Char
  deriving DecidableEq, Repr, Inhabited

/-- Modelled from the spec: the characters that `parseToken` skips silently
(spec 4.1 step 2, "run of space/tab"); the spec lists newline apart from
whitespace, so whitespace is space or tab. -/
def isBlank (c : Char) : Bool := c == ' ' || c == '\t'

/-- Modelled from the spec: the characters that end a bare run when unescaped
(spec 4.1: whitespace, `"`, `#`, `[`, `]`, `=`, newline). -/
def isDelim (c : Char) : Bool :=
  isBlank c || c == '"' || c == '#' || c == '[' || c == ']' || c == '=' || c == '\n'

/-- Modelled from the spec: `NutParser::get` (missing `nutconf.cpp`), the next
character and the advanced cursor. -/
def get (cursor : List Char) : Option Char × List Char := (cursor.head?, cursor.tail)

/-- Modelled from the spec: the loop of the bare-run scan; `escaped` tells
whether the previous character was an unescaped backslash.  A backslash is
dropped and the next character is appended verbatim; an unescaped delimiter ends
the run and is left on the cursor; a backslash at end of input ends the scan. -/
def parseCHARSAux : Bool → List Char → List Char × List Char
  | _, [] => ([], [])
  | true, c :: rest =>
    let r := parseCHARSAux false rest
    (c :: r.1, r.2)
  | false, c :: rest =>
    if c = '\\' then parseCHARSAux true rest
    else if isDelim c then ([], c :: rest)
    else
      let r := parseCHARSAux false rest
      (c :: r.1, r.2)

/-- Modelled from the spec: `NutParser::parseCHARS` (missing `nutconf.cpp`), the
bare-run scan of spec 4.1; returns the scanned text and the cursor after it. -/
def parseCHARS (cursor : List Char) : List Char × List Char :=
  parseCHARSAux false cursor

/-- Modelled from the spec: the loop of the quoted-run scan, as `parseCHARSAux`
but only an unescaped `"` ends the run. -/
def parseSTRCHARSAux : Bool → List Char → List Char × List Char
  | _, [] => ([], [])
  | true, c :: rest =>
    let r := parseSTRCHARSAux false rest
    (c :: r.1, r.2)
  | false, c :: rest =>
    if c = '\\' then parseSTRCHARSAux true rest
    else if c = '"' then ([], c :: rest)
    else
      let r := parseSTRCHARSAux false rest
      (c :: r.1, r.2)

/-- Modelled from the spec: `NutParser::parseSTRCHARS` (missing `nutconf.cpp`),
the quoted-run scan of spec 4.1. -/
def parseSTRCHARS (cursor : List Char) : List Char × List Char :=
  parseSTRCHARSAux false cursor

/-- Modelled from the spec: `NutParser::parseToken` (missing `nutconf.cpp`),
steps 1 to 8 of spec 4.1 in priority order; `none` is "no more tokens".  The
text of a comment stops before the newline; the cursor moves past that newline:
`testPasreToken` (`tests/nutconf.cpp`, 114-144) reads a single EOL between the
comment of `[ceci]# Plouf` and `titi`, which are two newlines apart. -/
def parseToken : List Char → Option (Token × List Char)
  | [] => none
  | c :: rest =>
    if isBlank c then parseToken rest
    else if c = '\n' then some (⟨.TOKEN_EOL, ['\n']⟩, rest)
    else if c = '[' then some (⟨.TOKEN_BRACKET_OPEN, ['[']⟩, rest)
    else if c = ']' then some (⟨.TOKEN_BRACKET_CLOSE, [']']⟩, rest)
    else if c = '=' then some (⟨.TOKEN_EQUAL, ['=']⟩, rest)
    else if c = '#' then
      some (⟨.TOKEN_COMMENT, rest.takeWhile (fun x => x != '\n')⟩,
        (rest.dropWhile (fun x => x != '\n')).tail)
    else if c = '"' then
      let r := parseSTRCHARS rest
      some (⟨.TOKEN_QUOTED_STRING, r.1⟩, r.2.tail)
    else
      let r := parseCHARS (c :: rest)
      some (⟨.TOKEN_STRING, r.1⟩, r.2)

/-- Successive `parseToken` calls, at most `fuel` of them, until no token is
left. -/
def tokenizeFuel : Nat → List Char → List Token
  | 0, _ => []
  | fuel + 1, cursor =>
    match parseToken cursor with
    | none => []
    | some (t, rest) => t :: tokenizeFuel fuel rest

/-- The whole token sequence of an input: every token consumes a character, so
`input.length` calls are enough (`tokenize_eq`). -/
def tokenize (input : List Char) : List Token := tokenizeFuel input.length input

/-- One step of a bare run as the spec words it: a character taken as it is, or
a backslash followed by the character it escapes. -/
inductive RunItem
  | plain (c : Char)
  | escaped (c : Char)
  deriving DecidableEq, Repr

/-- The input characters of a step of a bare run. -/
def RunItem.source : RunItem → List Char
  | .plain c => [c]
  | .escaped c => ['\\', c]

/-- The character a step of a bare run appends: the backslash is dropped, the
character after it is kept verbatim. -/
def RunItem.text : RunItem → Char
  | .plain c => c
  | .escaped c => c

/-- A character taken as it is must be neither a delimiter nor a backslash; an
escaped character can be any character. -/
def RunItem.ok : RunItem → Bool
  | .plain c => !isDelim c && c != '\\'
  | .escaped _ => true

/-! ## Generic configuration parser and store -/

/-- Modelled from the spec: one line of the token stream as the parser of spec
4.2 reads it, the tokens before the line end and the trailing comment if any.  A
line ends at an EOL token or with a COMMENT token (whose newline the tokenizer
has consumed). -/
structure RawLine where
  body : List Token
  comment : Option (List Char)
  deriving DecidableEq, Repr

/-- Modelled from the spec: cutting the token stream into lines (spec 4.2,
"each production ends by consuming through the next EOL or end-of-input"). -/
def splitLines : List Token → List RawLine
  | [] => [⟨[], none⟩]
  | t :: ts =>
    if t.type = .TOKEN_EOL then ⟨[], none⟩ :: splitLines ts
    else if t.type = .TOKEN_COMMENT then ⟨[], some t.str⟩ :: splitLines ts
    else
      match splitLines ts with
      | [] => [⟨[t], none⟩]
      | l :: ls => ⟨t :: l.body, l.comment⟩ :: ls

/-- Modelled from the spec: the productions of spec 4.2 that change the store. -/
inductive Line
  | sectionHeader (name : List Char)
  | directive (name : List Char) (values : List (List Char)) (comment : Option (List Char))
  deriving DecidableEq, Repr

/-- A value token: STRING or QUOTED_STRING. -/
def isValue (t : Token) : Bool :=
  t.type == .TOKEN_STRING || t.type == .TOKEN_QUOTED_STRING

/-- The tokens after the name of a directive, without the optional `=`. -/
def dropEqual : List Token → List Token
  | [] => []
  | t :: ts => if t.type = .TOKEN_EQUAL then ts else t :: ts

/-- Modelled from the spec: the grammar table of spec 4.2 (missing
`nutconf.cpp`).  A section header is `[` STRING `]`; a directive is a STRING name
followed by value tokens; a line of any other shape is skipped.  The `=` after
the name is optional and the value list may be empty: `testGenericConfigParser`
(`tests/nutconf.cpp`, 146-177) reads `var toto` as `var` holding `toto`, and the
upsmon directives of `testUpsmonConfigParser` have no `=`. -/
def parseLine (l : RawLine) : Option Line :=
  match l.body with
  | [] => none
  | t :: rest =>
    if t.type = .TOKEN_STRING then
      if (dropEqual rest).all isValue then
        some (.directive t.str ((dropEqual rest).map Token.str) l.comment)
      else none
    else if t.type = .TOKEN_BRACKET_OPEN then
      match rest with
      | [n, c] =>
        if n.type = .TOKEN_STRING ∧ c.type = .TOKEN_BRACKET_CLOSE then
          some (.sectionHeader n.str)
        else none
      | _ => none
    else none

/-- The section headers and directives of a document, in order. -/
def configLines (text : List Char) : List Line :=
  (splitLines (tokenize text)).filterMap parseLine

/-- Modelled from the spec: `ConfigValue` of spec 3, the value entries of a
variable and its optional trailing comment. -/
structure ConfigValue where
  values : List (List Char)
  comment : Option (List Char)
  deriving DecidableEq, Repr, Inhabited

/-- Modelled from the spec: `GenericConfiguration` of spec 3 (declared in the
missing `nutconf.h`), an insertion-ordered mapping from section name to an
insertion-ordered mapping from variable name to its value. -/
structure GenericConfiguration where
  sections : List (List Char × List (List Char × ConfigValue))
  deriving DecidableEq, Repr, Inhabited

/-- Update of the entry of `k` in an insertion-ordered mapping, appending a new
entry at the end when `k` is absent. -/
def upsert {V : Type} (k : List Char) (f : Option V → V) :
    List (List Char × V) → List (List Char × V)
  | [] => [(k, f none)]
  | (k', v) :: rest =>
    if k' = k then (k', f (some v)) :: rest else (k', v) :: upsert k f rest

/-- Lookup in an insertion-ordered mapping. -/
def find {V : Type} (k : List Char) : List (List Char × V) → Option V
  | [] => none
  | (k', v) :: rest => if k' = k then some v else find k rest

/-- The variable `var` of section `sec`, if both exist. -/
def GenericConfiguration.lookup (conf : GenericConfiguration) (sec var : List Char) :
    Option ConfigValue :=
  match find sec conf.sections with
  | none => none
  | some vars => find var vars

/-- Modelled from the spec: the state of the parser of spec 4.2, the store being
built and the current section. -/
structure ParserState where
  conf : GenericConfiguration
  current : List Char
  deriving DecidableEq, Repr

/-- Modelled from the spec: the effect on a variable of one directive (spec
4.2): created with the values of the line if absent, else the values of the line
are appended to its entries. -/
def declare (values : List (List Char)) (comment : Option (List Char)) :
    Option ConfigValue → ConfigValue
  | none => ⟨values, comment⟩
  | some v => ⟨v.values ++ values, if comment.isSome then comment else v.comment⟩

/-- Modelled from the spec: the effect column of the grammar table of spec 4.2. -/
def applyLine (st : ParserState) : Line → ParserState
  | .sectionHeader name =>
    { conf := ⟨upsert name (fun o => o.getD []) st.conf.sections⟩, current := name }
  | .directive name values comment =>
    { conf := ⟨upsert st.current
        (fun o => upsert name (declare values comment) (o.getD [])) st.conf.sections⟩,
      current := st.current }

/-- The parser state before the first line: empty store, global section. -/
def ParserState.init : ParserState := ⟨⟨[]⟩, []⟩

/-- Modelled from the spec: `GenericConfiguration::parseFromString` (missing
`nutconf.cpp`), spec 4.3: the store populated from scratch from a text. -/
def parseFromString (text : List Char) : GenericConfiguration :=
  ((configLines text).foldl applyLine ParserState.init).conf

/-- The section, variable and value-list structure of a store (comments are not
part of it). -/
def GenericConfiguration.content (conf : GenericConfiguration) :
    List (List Char × List (List Char × List (List Char))) :=
  conf.sections.map (fun s => (s.1, s.2.map (fun v => (v.1, v.2.values))))

/-- The value lists that the lines of a document declare for the variable `var`
of section `sec`, one per directive line that names it, in order; `current` is
the section in force at the first line. -/
def declarations (sec var : List Char) : List Char → List Line → List (List (List Char))
  | _, [] => []
  | _, .sectionHeader name :: ls => declarations sec var name ls
  | current, .directive name values _ :: ls =>
    if current = sec ∧ name = var then values :: declarations sec var current ls
    else declarations sec var current ls

/-- The document of `testGenericConfigParser` (`tests/nutconf.cpp`, 148-159). -/
def genericSample : List Char :=
  ("glovar1 = toto\n" ++ "glovar2 = \"truc bidule\"\n" ++ "\n" ++
    "[section1] # One section\n" ++ "var1 = \"one value\"\n" ++ " \n" ++ "var2\n" ++ "\n" ++
    "[section2]\n" ++ "var1 = other value\n" ++ "var toto").toList

/-! ## UpsmonConfiguration: notify flags -/

/-- Modelled from the spec: the symbolic names of a `+`-joined token (spec 4.4,
`SYSLOG+WALL`). -/
def splitPlus : List Char → List (List Char)
  | [] => [[]]
  | c :: cs =>
    if c = '+' then [] :: splitPlus cs
    else
      match splitPlus cs with
      | [] => [[c]]
      | w :: ws => (c :: w) :: ws

/-- Modelled from the spec: the bits of the tokens of one NOTIFYFLAG line, all
OR-combined (spec 4.4); `flagBit` is the table of bit constants of the flag
names, declared in the missing `nutconf.h`. -/
def notifyFlagsOf (flagBit : List Char → Nat) (tokens : List (List Char)) : Nat :=
  tokens.foldl (fun acc tok => (splitPlus tok).foldl (fun a name => a ||| flagBit name) acc) 0

/-- Modelled from the spec: the part of `UpsmonConfiguration` (declared in the
missing `nutconf.h`) that NOTIFYFLAG fills: the generic store and one optional
bitmask per notify category of the enumeration `κ`. -/
structure UpsmonConfiguration (κ : Type) where
  conf : GenericConfiguration
  notifyFlags : κ → Option Nat

/-- Modelled from the spec: the name of the directive NOTIFYFLAG (spec 4.4). -/
def NOTIFYFLAG : List Char := "NOTIFYFLAG".toList

/-- Modelled from the spec: the effect of one line on the notify flags (spec
4.4): `NOTIFYFLAG <category> <token>+` sets the entry of the category that
`typeOf` reads in the first value to the OR of the bits of the other tokens; any
other line leaves the flags as they are. -/
def applyNotifyFlag {κ : Type} [DecidableEq κ] (typeOf : List Char → Option κ)
    (flagBit : List Char → Nat) (flags : κ → Option Nat) : Line → κ → Option Nat
  | .directive name (cat :: tok :: toks) _ =>
    if name = NOTIFYFLAG then
      match typeOf cat with
      | some k => fun k' => if k' = k then some (notifyFlagsOf flagBit (tok :: toks)) else flags k'
      | none => flags
    else flags
  | _ => flags

/-- Modelled from the spec: `UpsmonConfiguration::parseFromString` (missing
`nutconf.cpp`) as far as NOTIFYFLAG goes; every entry starts unset. -/
def UpsmonConfiguration.parseFromString {κ : Type} [DecidableEq κ]
    (typeOf : List Char → Option κ) (flagBit : List Char → Nat) (text : List Char) :
    UpsmonConfiguration κ :=
  { conf := nut.parseFromString text,
    notifyFlags := (configLines text).foldl (applyNotifyFlag typeOf flagBit) (fun _ => none) }

/-- Modelled from the spec: the two notify categories that the available sources
name (`NOTIFY_ONLINE` and `NOTIFY_LOWBATT` in `tests/nutconf.cpp`). -/
inductive NotifyType
  | NOTIFY_ONLINE
  | NOTIFY_LOWBATT
  deriving DecidableEq, Repr

/-- Modelled from the spec: the category that a category name selects. -/
def NotifyTypeFromString (name : List Char) : Option NotifyType :=
  if name = "ONLINE".toList then some .NOTIFY_ONLINE
  else if name = "LOWBATT".toList then some .NOTIFY_LOWBATT
  else none

/-- Modelled from the spec: the bit constants of the two flag names that the spec
names, one bit each, with `SYSLOG|WALL = 3` (spec 8). -/
def NotifyFlagFromString (name : List Char) : Nat :=
  if name = "SYSLOG".toList then 1
  else if name = "WALL".toList then 2
  else 0

/-- The flag tokens of a line that is a NOTIFYFLAG directive naming the category
`k`: a first value that `typeOf` reads as `k`, then at least one token. -/
def notifyFlagLine {κ : Type} [DecidableEq κ] (typeOf : List Char → Option κ) (k : κ) :
    Line → Option (List (List Char))
  | .directive name (cat :: tok :: toks) _ =>
    if name = NOTIFYFLAG ∧ typeOf cat = some k then some (tok :: toks) else none
  | _ => none

/-- The bitwise OR of the bit constants of every symbolic flag name in every
`+`-joined token. -/
def flagsOr (flagBit : List Char → Nat) (tokens : List (List Char)) : Nat :=
  (((tokens.map splitPlus).flatten).map flagBit).foldr (fun b acc => b ||| acc) 0

/-- The document of `testUpsmonConfigParser` (`tests/nutconf.cpp`, 181-201). -/
def upsmonSample : List Char :=
  ("RUN_AS_USER nutmon\n" ++
    "MONITOR myups@bigserver 1 monmaster blah master\n" ++
    "MONITOR su700@server.example.com 1 upsmon secretpass slave\n" ++
    "MONITOR myups@localhost 1 upsmon pass master\n" ++
    "MINSUPPLIES 1\n" ++ "\n" ++ "# MINSUPPLIES 25\n" ++
    "SHUTDOWNCMD \"/sbin/shutdown -h +0\"\n" ++
    "NOTIFYCMD /usr/local/ups/bin/notifyme\n" ++
    "POLLFREQ 30\n" ++ "POLLFREQALERT 5\n" ++ "HOSTSYNC 15\n" ++ "DEADTIME 15\n" ++
    "POWERDOWNFLAG /etc/killpower\n" ++
    "NOTIFYMSG ONLINE \"UPS %s on line power\"\n" ++
    "NOTIFYFLAG LOWBATT SYSLOG+WALL\n" ++
    "RBWARNTIME 43200\n" ++ "NOCOMMWARNTIME 300\n" ++ "FINALDELAY 5").toList

end nut

/-! ## The driver controller `upsdrvctl.c` -/

namespace upsdrvctl

/-- The record `ups_t` of `upsdrvctl.c`; the `next` pointer is the order of the
table list, a null `char *` is `none`, an `int` field is an `Int` that stays
within `-2^31 .. 2^31 - 1` because every value stored in it goes through
`wrapInt`. -/
structure ups_t where
  upsname : String
  driver : Option String
  port : Option String
  sdorder : Int
  maxstartdelay : Int
  deriving DecidableEq, Repr

/-- The file-scope variables of `upsdrvctl.c` that `do_upsconf_args` reads and
writes. -/
structure State where
  upstable : List ups_t
  maxsdorder : Int
  maxstartdelay : Int
  driverpath : Option String
  deriving DecidableEq, Repr

/-- The static initialisers: empty table, `maxsdorder = 0`,
`maxstartdelay = 45`, `driverpath = NULL`. -/
def State.init : State := ⟨[], 0, 45, none⟩

/-- The value of a run of leading decimal digits, most significant first. -/
def digitsValue : Nat → List Char → Nat
  | acc, [] => acc
  | acc, c :: cs => if c.isDigit then digitsValue (acc * 10 + (c.toNat - '0'.toNat)) cs else acc

/-- The C library `isspace` in the "C" locale. -/
def isspace (c : Char) : Bool :=
  c == ' ' || c == '\t' || c == '\n' || c == '\x0b' || c == '\x0c' || c == '\r'

/-- The largest value of a 32-bit C `int`. -/
def INT_MAX : Int := 2147483647

/-- An integer as a 32-bit C `int` holds it: reduced modulo `2^32` into
`-2^31 .. 2^31 - 1` (two's complement).  This is the conversion of a `long` to
`int`, and the result of `i++` at `INT_MAX`, which the C standard leaves
undefined and which wraps as compiled for two's complement. -/
def wrapInt (z : Int) : Int := (z + 2147483648) % 4294967296 - 2147483648

/-- The conversion of an `int` to `unsigned int`: the value modulo `2^32`. -/
def toUnsigned (z : Int) : Nat := (z % 4294967296).toNat

/-- The C library `strtol` in base 10 with a 64-bit `long`: optional white
space, an optional sign, then decimal digits up to the first other character;
a value out of range is `LONG_MIN` or `LONG_MAX`. -/
def strtol (s : String) : Int :=
  let v : Int :=
    match s.toList.dropWhile isspace with
    | '-' :: ds => - (digitsValue 0 ds : Int)
    | '+' :: ds => (digitsValue 0 ds : Int)
    | ds => (digitsValue 0 ds : Int)
  max (-9223372036854775808) (min v 9223372036854775807)

/-- The C library `atoi`, which is `(int) strtol(s, NULL, 10)` in the GNU C
library: a numeral that does not fit an `int` is wrapped. -/
def atoi (s : String) : Int := wrapInt (strtol s)

/-- The body of the `if (!strcmp(tmp->upsname, upsname))` branch of
`do_upsconf_args` (lines 83-97), on the record. -/
def updateUps (var val : String) (tmp : ups_t) : ups_t :=
  let tmp := if var = "driver" then { tmp with driver := some val } else tmp
  let tmp := if var = "port" then { tmp with port := some val } else tmp
  let tmp := if var = "maxstartdelay" then { tmp with maxstartdelay := atoi val } else tmp
  if var = "sdorder" then { tmp with sdorder := atoi val } else tmp

/-- The record that `do_upsconf_args` allocates for a name that is not in the
table (lines 105-117). -/
def newUps (upsname var val : String) : ups_t :=
  let tmp : ups_t := ⟨upsname, none, none, 0, -1⟩
  let tmp := if var = "driver" then { tmp with driver := some val } else tmp
  if var = "port" then { tmp with port := some val } else tmp

/-- The `while (tmp)` walk of `do_upsconf_args` (lines 77-122): the new table
and the new `maxsdorder`. -/
def walkTable (upsname var val : String) (maxsdorder : Int) :
    List ups_t → List ups_t × Int
  | [] => ([newUps upsname var val], maxsdorder)
  | tmp :: rest =>
    if tmp.upsname = upsname then
      let tmp' := updateUps var val tmp
      (tmp' :: rest,
        if var = "sdorder" ∧ tmp'.sdorder > maxsdorder then tmp'.sdorder else maxsdorder)
    else
      let r := walkTable upsname var val maxsdorder rest
      (tmp :: r.1, r.2)

/-- The function `do_upsconf_args` of `upsdrvctl.c`, lines 58-123. -/
def do_upsconf_args (upsname : Option String) (var val : String) (st : State) : State :=
  match upsname with
  | none =>
    let st := if var = "maxstartdelay" then { st with maxstartdelay := atoi val } else st
    if var = "driverpath" then { st with driverpath := some val } else st
  | some name =>
    let r := walkTable name var val st.maxsdorder st.upstable
    { st with upstable := r.1, maxsdorder := r.2 }

/-- One call of `do_upsconf_args`: its three arguments. -/
abbrev Decl := Option String × String × String

/-- The state after a sequence of `do_upsconf_args` calls, starting from the
static initialisers. -/
def readConf (calls : List Decl) : State :=
  calls.foldl (fun st d => do_upsconf_args d.1 d.2.1 d.2.2 st) State.init

/-- The number of seconds that the `alarm` call of `forkexec` arms for a UPS
(lines 213-216): `alarm` takes an `unsigned int`, so the `int` it is given is
converted. -/
def forkexecAlarm (st : State) (ups : ups_t) : Nat :=
  toUnsigned (if ups.maxstartdelay ≠ -1 then ups.maxstartdelay else st.maxstartdelay)

/-- The three commands of `main`. -/
inductive Command
  | start_driver
  | stop_driver
  | shutdown_driver
  deriving DecidableEq, Repr

/-- The inner `while (ups)` walk of the shutdown loop of `send_all_drivers`
(lines 436-443): the UPSes whose `sdorder` is `i`, in table order. -/
def shutdownPass (table : List ups_t) (i : Int) : List ups_t :=
  table.filter (fun ups => ups.sdorder = i)

/-- How a run of `send_all_drivers` ends: the `fatalx` exit on an empty table,
a normal return, an exit of the process inside the command (`start_driver`
exits when `stat` fails on the driver, `forkexec` when `fork` fails), or still
running when the iterations granted to the loop are used up. -/
inductive Ending
  | fatal
  | returned
  | exited
  | running
  deriving DecidableEq, Repr

/-- A walk `while (ups) { command(ups); ups = ups->next; }` over a list of
UPSes: the UPSes that `command` is called on, in call order, and whether a call
ended the process; `exits ups` tells whether the call of `command` on `ups`
ends the process. -/
def callUntilExit (exits : ups_t → Bool) : List ups_t → List ups_t × Bool
  | [] => ([], false)
  | ups :: rest =>
    if exits ups then ([ups], true)
    else
      let r := callUntilExit exits rest
      (ups :: r.1, r.2)

/-- The loop `for (i = 0; i <= maxsdorder; i++)` of `send_all_drivers` (lines
435-444) from the value `i` of the counter, run for at most `fuel` iterations:
the UPSes that `command` is called on, in call order, and how the run ends.
`i` and `maxsdorder` are `int`: the increment wraps at `INT_MAX`. -/
def shutdownLoop (exits : ups_t → Bool) (st : State) : Nat → Int → List ups_t × Ending
  | 0, _ => ([], .running)
  | fuel + 1, i =>
    if i ≤ st.maxsdorder then
      let p := callUntilExit exits (shutdownPass st.upstable i)
      if p.2 then (p.1, .exited)
      else
        let r := shutdownLoop exits st fuel (wrapInt (i + 1))
        (p.1 ++ r.1, r.2)
    else ([], .returned)

/-- The function `send_all_drivers` of `upsdrvctl.c`, lines 415-445: the UPSes
that `command` is called on, in call order, and how the run ends; the shutdown
loop is run for at most `fuel` iterations. -/
def send_all_drivers (exits : ups_t → Bool) (command : Command) (fuel : Nat) (st : State) :
    List ups_t × Ending :=
  if st.upstable = [] then ([], .fatal)
  else if command ≠ .shutdown_driver then
    let r := callUntilExit exits st.upstable
    (r.1, if r.2 then .exited else .returned)
  else shutdownLoop exits st fuel 0

/-- The shutdown order: the UPSes whose `sdorder` is 0, then 1, and so on up to
`maxsdorder`, each group in table order. -/
def shutdownOrder (st : State) : List ups_t :=
  ((List.range (st.maxsdorder + 1).toNat).map
    (fun i : Nat => shutdownPass st.upstable (i : Int))).flatten

/-- A sample `ups.conf` whose second UPS has the largest `sdorder` an `int`
holds. -/
def overflowCalls : List Decl :=
  [(some "b", "driver", "x"), (some "a", "driver", "y"), (some "a", "sdorder", "2147483647")]

/-- A sample `ups.conf` as the sequence of calls it gives rise to: three UPSes
with shutdown orders 2, 0 and 1. -/
def sampleCalls : List Decl :=
  [(some "a", "driver", "x"), (some "a", "sdorder", "2"), (some "b", "driver", "y"),
    (some "c", "driver", "z"), (some "c", "sdorder", "1")]

/-- A sample sequence of calls with a global `maxstartdelay` and a device whose
first two declarations are `maxstartdelay`. -/
def sampleDelays : List Decl :=
  [(none, "maxstartdelay", "30"), (some "ups1", "maxstartdelay", "10"),
    (some "ups1", "maxstartdelay", "20"), (some "ups1", "driver", "dummy"),
    (some "ups2", "driver", "dummy")]

/-- The invariant of the controller state: `maxsdorder` is not negative, bounds
every `sdorder` of the table, and the names of the table are pairwise distinct. -/
def Inv (st : State) : Prop :=
  0 ≤ st.maxsdorder ∧ (∀ u ∈ st.upstable, u.sdorder ≤ st.maxsdorder) ∧
    (st.upstable.map ups_t.upsname).Nodup

/-- The last value that a sequence of calls declares for the variable `var` of
the device `upsname` (`none`: a global declaration), if any. -/
def lastDeclared (upsname : Option String) (var : String) (calls : List Decl) :
    Option String :=
  ((calls.filter (fun d => d.1 = upsname ∧ d.2.1 = var)).getLast?).map (fun d => d.2.2)

/-- The variable of the first call of a sequence that names the device
`upsname`, if any. -/
def firstVar (upsname : String) (calls : List Decl) : Option String :=
  (calls.find? (fun d => d.1 = some upsname)).map (fun d => d.2.1)

/-- The last global `maxstartdelay` declared, otherwise the default 45. -/
def globalTimer (calls : List Decl) : Int :=
  match lastDeclared none "maxstartdelay" calls with
  | some v => atoi v
  | none => 45

/-- The calls of a sequence that come after the first call naming the device
`upsname`: the calls made once its record exists. -/
def afterFirst (upsname : String) : List Decl → List Decl
  | [] => []
  | d :: ds => if d.1 = some upsname then ds else afterFirst upsname ds

/-- The startup timer of a UPS in the words of the specification: the last
per-device `maxstartdelay` declared if there is one, otherwise the last global
one, otherwise 45; the `int` that `atoi` reads, as the `unsigned int` that
`alarm` takes. -/
def declaredTimer (calls : List Decl) (upsname : String) : Nat :=
  toUnsigned
    (match lastDeclared (some upsname) "maxstartdelay" calls with
      | some v => atoi v
      | none => globalTimer calls)

/-- The startup timer of a UPS when a per-device value that `atoi` reads as -1
stands for "use the global value". -/
def startupTimer (calls : List Decl) (upsname : String) : Nat :=
  toUnsigned
    (match lastDeclared (some upsname) "maxstartdelay" calls with
      | some v => if atoi v ≠ -1 then atoi v else globalTimer calls
      | none => globalTimer calls)

/-- The function `send_one_driver` of `upsdrvctl.c`, lines 395-412: the UPS
that `command` is called on, the first record of the table that has the name;
`none` is a `fatalx` exit (empty table, or no record with the name). -/
def send_one_driver (upsname : String) (st : State) : Option ups_t :=
  st.upstable.find? (fun ups => ups.upsname = upsname)

/-- The names of a list, each once, in the order of their first occurrence. -/
def firstOccurrences (names : List String) : List String :=
  names.foldl (fun acc n => if n ∈ acc then acc else acc ++ [n]) []

/-- How `start_driver` and `shutdown_driver` can fail to build their argument
vector: the `fatal_with_errno` exit, or a write outside the array. -/
inductive Failure
  | fatal
  | outOfBounds
  deriving DecidableEq, Repr

/-- The UTF-8 bytes of a character. -/
def utf8Bytes (c : Char) : List Nat :=
  let n := c.toNat
  if n < 128 then [n]
  else if n < 2048 then [192 + n / 64, 128 + n % 64]
  else if n < 65536 then [224 + n / 4096, 128 + n / 64 % 64, 128 + n % 64]
  else [240 + n / 262144, 128 + n / 4096 % 64, 128 + n / 64 % 64, 128 + n % 64]

/-- The bytes of the C string that holds a text, without the terminating NUL. -/
def cstring (s : String) : List Nat := (s.toList.map utf8Bytes).flatten

/-- The bytes that `%s` prints for a `char *`: a null pointer is printed as
`(null)`, as the GNU C library does. -/
def printed (p : Option String) : List Nat := cstring (p.getD "(null)")

/-- The statement `argv[arg++] = x` on an array of `size` slots.  `arg` starts at
0 and only this statement changes it, so the slots written so far are the list
`argv` and `arg` is its length; a slot holds the bytes of a C string, or `none`
for a null pointer. -/
def store (size : Nat) (argv : List (Option (List Nat))) (x : Option (List Nat)) :
    Except Failure (List (Option (List Nat))) :=
  if argv.length < size then .ok (argv ++ [x]) else .error .outOfBounds

/-- The buffer `dfn` after `snprintf(dfn, sizeof(dfn), "%s/%s", driverpath,
ups->driver)` (lines 302 and 365): the first `SMALLBUF - 1` bytes of the text,
`SMALLBUF` being defined in the missing `common.h`. -/
def dfn (SMALLBUF : Nat) (driverpath driver : Option String) : List Nat :=
  (printed driverpath ++ cstring "/" ++ printed driver).take (SMALLBUF - 1)

/-- The function `start_driver` of `upsdrvctl.c`, lines 292-334, up to the
argument vector it hands to `debugcmdline` and `forkexec`; `statOk` tells
whether `stat(dfn)` succeeds, `pt_root` and `pt_user` are the file-scope
passthrough options. -/
def start_driver (SMALLBUF : Nat) (statOk : Bool) (st : State)
    (pt_root pt_user : Option String) (ups : ups_t) :
    Except Failure (List (Option (List Nat))) := do
  if !statOk then throw Failure.fatal
  let argv ← store 8 [] (some (dfn SMALLBUF st.driverpath ups.driver))
  let argv ← store 8 argv (some (cstring "-a"))
  let argv ← store 8 argv (some (cstring ups.upsname))
  let argv ←
    match pt_root with
    | some root => do
      let argv ← store 8 argv (some (cstring "-r"))
      store 8 argv (some (cstring root))
    | none => pure argv
  let argv ←
    match pt_user with
    | some user => do
      let argv ← store 8 argv (some (cstring "-u"))
      store 8 argv (some (cstring user))
    | none => pure argv
  store 8 argv none

/-- The function `shutdown_driver` of `upsdrvctl.c`, lines 356-393, up to the
argument vector it hands to `debugcmdline` and `forkexec`. -/
def shutdown_driver (SMALLBUF : Nat) (st : State) (pt_root pt_user : Option String)
    (ups : ups_t) : Except Failure (List (Option (List Nat))) := do
  let argv ← store 9 [] (some (dfn SMALLBUF st.driverpath ups.driver))
  let argv ← store 9 argv (some (cstring "-a"))
  let argv ← store 9 argv (some (cstring ups.upsname))
  let argv ← store 9 argv (some (cstring "-k"))
  let argv ←
    match pt_root with
    | some root => do
      let argv ← store 9 argv (some (cstring "-r"))
      store 9 argv (some (cstring root))
    | none => pure argv
  let argv ←
    match pt_user with
    | some user => do
      let argv ← store 9 argv (some (cstring "-u"))
      store 9 argv (some (cstring user))
    | none => pure argv
  store 9 argv none

/-- The passthrough arguments: `-r` and the chroot path if one is given, then
`-u` and the user if one is given. -/
def passthrough (pt_root pt_user : Option String) : List (Option (List Nat)) :=
  (match pt_root with
    | some root => [some (cstring "-r"), some (cstring root)]
    | none => []) ++
  (match pt_user with
    | some user => [some (cstring "-u"), some (cstring user)]
    | none => [])

end upsdrvctl

/-! ## Tokenizer: properties -/

namespace nut

/-- The scan loops never move the cursor backwards. -/
theorem parseCHARSAux_length (escaped : Bool) (cursor : List Char) :
    (parseCHARSAux escaped cursor).2.length ≤ cursor.length := by
  induction cursor generalizing escaped with
  | nil => cases escaped <;> simp [parseCHARSAux]
  | cons c rest ih =>
    cases escaped
    · simp only [parseCHARSAux]
      split
      · exact Nat.le_succ_of_le (ih true)
      · split
        · simp
        · exact Nat.le_succ_of_le (ih false)
    · simp only [parseCHARSAux]
      exact Nat.le_succ_of_le (ih false)

theorem parseSTRCHARSAux_length (escaped : Bool) (cursor : List Char) :
    (parseSTRCHARSAux escaped cursor).2.length ≤ cursor.length := by
  induction cursor generalizing escaped with
  | nil => cases escaped <;> simp [parseSTRCHARSAux]
  | cons c rest ih =>
    cases escaped
    · simp only [parseSTRCHARSAux]
      split
      · exact Nat.le_succ_of_le (ih true)
      · split
        · simp
        · exact Nat.le_succ_of_le (ih false)
    · simp only [parseSTRCHARSAux]
      exact Nat.le_succ_of_le (ih false)

/-- A bare run that starts on a character that is not a delimiter consumes it. -/
theorem parseCHARS_length_lt (c : Char) (rest : List Char) (h : isDelim c = false) :
    (parseCHARS (c :: rest)).2.length < (c :: rest).length := by
  simp only [parseCHARS, parseCHARSAux, h]
  split
  · exact Nat.lt_succ_of_le (parseCHARSAux_length true rest)
  · simp only [Bool.false_eq_true, if_false]
    exact Nat.lt_succ_of_le (parseCHARSAux_length false rest)

theorem dropWhile_tail_length_le (p : Char → Bool) (l : List Char) :
    ((l.dropWhile p).tail).length ≤ l.length := by
  induction l with
  | nil => simp
  | cons a l ih =>
    simp only [List.dropWhile]
    split
    · exact Nat.le_succ_of_le ih
    · simp

/-- The value of `isDelim` on a character that none of the one-character
branches of `parseToken` takes. -/
theorem isDelim_eq_false_of_ne {c : Char} (h0 : isBlank c = false) (h1 : c ≠ '\n')
    (h2 : c ≠ '[') (h3 : c ≠ ']') (h4 : c ≠ '=') (h5 : c ≠ '#') (h6 : c ≠ '"') :
    isDelim c = false := by
  simp [isDelim, h0, h1, h2, h3, h4, h5, h6]

/-- Every token consumes at least one character. -/
theorem parseToken_length_lt (cursor : List Char) (t : Token) (rest : List Char)
    (h : parseToken cursor = some (t, rest)) : rest.length < cursor.length := by
  induction cursor with
  | nil => simp [parseToken] at h
  | cons c cs ih =>
    rw [parseToken] at h
    by_cases h0 : isBlank c = true
    · rw [if_pos h0] at h
      exact Nat.lt_succ_of_lt (ih h)
    · rw [if_neg h0] at h
      have h0' : isBlank c = false := by simpa using h0
      by_cases h1 : c = '\n'
      · rw [if_pos h1] at h; cases h; simp
      rw [if_neg h1] at h
      by_cases h2 : c = '['
      · rw [if_pos h2] at h; cases h; simp
      rw [if_neg h2] at h
      by_cases h3 : c = ']'
      · rw [if_pos h3] at h; cases h; simp
      rw [if_neg h3] at h
      by_cases h4 : c = '='
      · rw [if_pos h4] at h; cases h; simp
      rw [if_neg h4] at h
      by_cases h5 : c = '#'
      · rw [if_pos h5] at h; cases h
        exact Nat.lt_succ_of_le (dropWhile_tail_length_le _ cs)
      rw [if_neg h5] at h
      by_cases h6 : c = '"'
      · rw [if_pos h6] at h; cases h
        refine Nat.lt_succ_of_le (le_trans ?_ (parseSTRCHARSAux_length false cs))
        simp [parseSTRCHARS]
      rw [if_neg h6] at h
      cases h
      exact parseCHARS_length_lt c cs (isDelim_eq_false_of_ne h0' h1 h2 h3 h4 h5 h6)

theorem tokenizeFuel_of_le (fuel : Nat) (cursor : List Char) (h : cursor.length ≤ fuel) :
    tokenizeFuel fuel cursor = tokenizeFuel cursor.length cursor := by
  induction fuel using Nat.strong_induction_on generalizing cursor with
  | _ fuel ih =>
    cases cursor with
    | nil => cases fuel <;> simp [tokenizeFuel, parseToken]
    | cons c cs =>
      cases fuel with
      | zero => simp at h
      | succ n =>
        simp only [List.length_cons] at h
        simp only [tokenizeFuel, List.length_cons]
        cases hp : parseToken (c :: cs) with
        | none => rfl
        | some tr =>
          obtain ⟨t, r⟩ := tr
          have hlt := parseToken_length_lt _ _ _ hp
          simp only [List.length_cons] at hlt
          simp only
          rw [ih n (Nat.lt_succ_self n) r (by omega),
            ih cs.length (by omega) r (by omega)]

/-- The token sequence of an input is the token of the first `parseToken` call
followed by the token sequence of the cursor it leaves: the fuel of `tokenize`
never runs out. -/
theorem tokenize_eq (input : List Char) :
    tokenize input =
      match parseToken input with
      | none => []
      | some (t, rest) => t :: tokenize rest := by
  cases input with
  | nil => simp [tokenize, tokenizeFuel, parseToken]
  | cons c cs =>
    simp only [tokenize, List.length_cons, tokenizeFuel]
    cases hp : parseToken (c :: cs) with
    | none => rfl
    | some tr =>
      obtain ⟨t, r⟩ := tr
      have hlt := parseToken_length_lt _ _ _ hp
      simp only [List.length_cons] at hlt
      simp only
      rw [tokenizeFuel_of_le cs.length r (by omega)]

theorem parseToken_dropWhile (input : List Char) :
    parseToken input = parseToken (input.dropWhile isBlank) := by
  induction input with
  | nil => rfl
  | cons c cs ih =>
    by_cases h0 : isBlank c = true
    · rw [List.dropWhile_cons_of_pos h0, ← ih, parseToken, if_pos h0]
    · rw [List.dropWhile_cons_of_neg h0]

/-- C1: every `parseToken` call skips the leading spaces and tabs, returns no
token at end of input, and else returns exactly one token chosen by the first
remaining character (newline: EOL; `[` and `]`: BRACKET_OPEN and BRACKET_CLOSE;
`=`: EQUAL; `#`: COMMENT with the text up to but excluding the next newline;
`"`: QUOTED_STRING; any other character: STRING), moving the cursor forward;
successive calls (`tokenize`) on the five-line input of `testPasreToken` yield
exactly its 15 tokens. -/
theorem parseToken_dispatch :
    (∀ input : List Char,
      parseToken input = parseToken (input.dropWhile isBlank) ∧
      (input.dropWhile isBlank = [] → parseToken input = none) ∧
      (∀ c rest, input.dropWhile isBlank = c :: rest →
        ∃ t cursor, parseToken input = some (t, cursor) ∧
          cursor.length < input.length ∧
          tokenize input = t :: tokenize cursor ∧
          (c = '\n' → t = ⟨.TOKEN_EOL, ['\n']⟩ ∧ cursor = rest) ∧
          (c = '[' → t = ⟨.TOKEN_BRACKET_OPEN, ['[']⟩ ∧ cursor = rest) ∧
          (c = ']' → t = ⟨.TOKEN_BRACKET_CLOSE, [']']⟩ ∧ cursor = rest) ∧
          (c = '=' → t = ⟨.TOKEN_EQUAL, ['=']⟩ ∧ cursor = rest) ∧
          (c = '#' → t = ⟨.TOKEN_COMMENT, rest.takeWhile (fun x => x != '\n')⟩ ∧
            cursor = (rest.dropWhile (fun x => x != '\n')).tail) ∧
          (c = '"' → t = ⟨.TOKEN_QUOTED_STRING, (parseSTRCHARS rest).1⟩ ∧
            cursor = (parseSTRCHARS rest).2.tail) ∧
          (c ≠ '\n' → c ≠ '[' → c ≠ ']' → c ≠ '=' → c ≠ '#' → c ≠ '"' →
            t = ⟨.TOKEN_STRING, (parseCHARS (c :: rest)).1⟩ ∧
            cursor = (parseCHARS (c :: rest)).2))) ∧
    tokenize
        "Bonjour monde\n[ceci]# Plouf\n\ntiti = \"tata toto\"\nNOTIFYFLAG LOWBATT SYSLOG+WALL".toList =
      [⟨.TOKEN_STRING, "Bonjour".toList⟩, ⟨.TOKEN_STRING, "monde".toList⟩,
       ⟨.TOKEN_EOL, "\n".toList⟩, ⟨.TOKEN_BRACKET_OPEN, "[".toList⟩,
       ⟨.TOKEN_STRING, "ceci".toList⟩, ⟨.TOKEN_BRACKET_CLOSE, "]".toList⟩,
       ⟨.TOKEN_COMMENT, " Plouf".toList⟩, ⟨.TOKEN_EOL, "\n".toList⟩,
       ⟨.TOKEN_STRING, "titi".toList⟩, ⟨.TOKEN_EQUAL, "=".toList⟩,
       ⟨.TOKEN_QUOTED_STRING, "tata toto".toList⟩, ⟨.TOKEN_EOL, "\n".toList⟩,
       ⟨.TOKEN_STRING, "NOTIFYFLAG".toList⟩, ⟨.TOKEN_STRING, "LOWBATT".toList⟩,
       ⟨.TOKEN_STRING, "SYSLOG+WALL".toList⟩] := by
  refine ⟨fun input => ⟨parseToken_dropWhile input, ?_, ?_⟩, by decide⟩
  · intro h
    rw [parseToken_dropWhile, h]
    rfl
  · intro c rest h
    have hc : isBlank c = false := by
      have := List.head_dropWhile_not isBlank input (by rw [h]; simp)
      simpa [h] using this
    have key : ∃ t cursor, parseToken (c :: rest) = some (t, cursor) ∧
        (c = '\n' → t = ⟨.TOKEN_EOL, ['\n']⟩ ∧ cursor = rest) ∧
        (c = '[' → t = ⟨.TOKEN_BRACKET_OPEN, ['[']⟩ ∧ cursor = rest) ∧
        (c = ']' → t = ⟨.TOKEN_BRACKET_CLOSE, [']']⟩ ∧ cursor = rest) ∧
        (c = '=' → t = ⟨.TOKEN_EQUAL, ['=']⟩ ∧ cursor = rest) ∧
        (c = '#' → t = ⟨.TOKEN_COMMENT, rest.takeWhile (fun x => x != '\n')⟩ ∧
          cursor = (rest.dropWhile (fun x => x != '\n')).tail) ∧
        (c = '"' → t = ⟨.TOKEN_QUOTED_STRING, (parseSTRCHARS rest).1⟩ ∧
          cursor = (parseSTRCHARS rest).2.tail) ∧
        (c ≠ '\n' → c ≠ '[' → c ≠ ']' → c ≠ '=' → c ≠ '#' → c ≠ '"' →
          t = ⟨.TOKEN_STRING, (parseCHARS (c :: rest)).1⟩ ∧
          cursor = (parseCHARS (c :: rest)).2) := by
      rw [parseToken, if_neg (by simp [hc])]
      by_cases h1 : c = '\n'
      · subst h1
        exact ⟨_, _, rfl, fun _ => ⟨rfl, rfl⟩, fun h => absurd h (by decide),
          fun h => absurd h (by decide), fun h => absurd h (by decide),
          fun h => absurd h (by decide), fun h => absurd h (by decide),
          fun h => absurd rfl h⟩
      by_cases h2 : c = '['
      · subst h2
        exact ⟨_, _, rfl, fun h => absurd h (by decide), fun _ => ⟨rfl, rfl⟩,
          fun h => absurd h (by decide), fun h => absurd h (by decide),
          fun h => absurd h (by decide), fun h => absurd h (by decide),
          fun _ h => absurd rfl h⟩
      by_cases h3 : c = ']'
      · subst h3
        exact ⟨_, _, rfl, fun h => absurd h (by decide), fun h => absurd h (by decide),
          fun _ => ⟨rfl, rfl⟩, fun h => absurd h (by decide),
          fun h => absurd h (by decide), fun h => absurd h (by decide),
          fun _ _ h => absurd rfl h⟩
      by_cases h4 : c = '='
      · subst h4
        exact ⟨_, _, rfl, fun h => absurd h (by decide), fun h => absurd h (by decide),
          fun h => absurd h (by decide), fun _ => ⟨rfl, rfl⟩,
          fun h => absurd h (by decide), fun h => absurd h (by decide),
          fun _ _ _ h => absurd rfl h⟩
      by_cases h5 : c = '#'
      · subst h5
        exact ⟨_, _, rfl, fun h => absurd h (by decide), fun h => absurd h (by decide),
          fun h => absurd h (by decide), fun h => absurd h (by decide),
          fun _ => ⟨rfl, rfl⟩, fun h => absurd h (by decide),
          fun _ _ _ _ h => absurd rfl h⟩
      by_cases h6 : c = '"'
      · subst h6
        exact ⟨_, _, rfl, fun h => absurd h (by decide), fun h => absurd h (by decide),
          fun h => absurd h (by decide), fun h => absurd h (by decide),
          fun h => absurd h (by decide), fun _ => ⟨rfl, rfl⟩,
          fun _ _ _ _ _ h => absurd rfl h⟩
      rw [if_neg h1, if_neg h2, if_neg h3, if_neg h4, if_neg h5, if_neg h6]
      exact ⟨_, _, rfl, fun h => absurd h h1, fun h => absurd h h2, fun h => absurd h h3,
        fun h => absurd h h4, fun h => absurd h h5, fun h => absurd h h6,
        fun _ _ _ _ _ _ => ⟨rfl, rfl⟩⟩
    obtain ⟨t, cursor, hp, hrest⟩ := key
    have hp' : parseToken input = some (t, cursor) := by
      rw [parseToken_dropWhile, h]; exact hp
    refine ⟨t, cursor, hp', parseToken_length_lt _ _ _ hp', ?_, hrest⟩
    rw [tokenize_eq input, hp']

theorem parseCHARSAux_items (n : Nat) (input : List Char) (hn : input.length ≤ n) :
    ∃ items : List RunItem,
      (∀ i ∈ items, i.ok = true) ∧
      (parseCHARSAux false input).1 = items.map RunItem.text ∧
      ((input = (items.map RunItem.source).flatten ++ (parseCHARSAux false input).2 ∧
          ((parseCHARSAux false input).2 = [] ∨
            ∃ d rest, (parseCHARSAux false input).2 = d :: rest ∧ isDelim d = true)) ∨
        (input = (items.map RunItem.source).flatten ++ ['\\'] ∧
          (parseCHARSAux false input).2 = [])) := by
  induction n generalizing input with
  | zero =>
    have : input = [] := List.length_eq_zero.mp (Nat.le_zero.mp hn)
    subst this
    exact ⟨[], by simp, by simp [parseCHARSAux], Or.inl ⟨by simp [parseCHARSAux], Or.inl (by simp [parseCHARSAux])⟩⟩
  | succ n ih =>
    cases input with
    | nil =>
      exact ⟨[], by simp, by simp [parseCHARSAux], Or.inl ⟨by simp [parseCHARSAux], Or.inl (by simp [parseCHARSAux])⟩⟩
    | cons c rest =>
      simp only [List.length_cons] at hn
      by_cases hb : c = '\\'
      · subst hb
        cases rest with
        | nil =>
          exact ⟨[], by simp, by simp [parseCHARSAux], Or.inr ⟨by simp, by simp [parseCHARSAux]⟩⟩
        | cons e rest' =>
          simp only [List.length_cons] at hn
          obtain ⟨items, hok, htxt, hsrc⟩ := ih rest' (by omega)
          refine ⟨.escaped e :: items, ?_, ?_, ?_⟩
          · intro i hi
            rcases List.mem_cons.mp hi with h | h
            · subst h; rfl
            · exact hok i h
          · simp [parseCHARSAux, htxt, RunItem.text]
          · rcases hsrc with ⟨h1, h2⟩ | ⟨h1, h2⟩
            · left
              refine ⟨?_, ?_⟩
              · simp only [parseCHARSAux, if_true, List.map_cons, List.flatten_cons,
                  RunItem.source, List.cons_append, List.nil_append]
                rw [← h1]
              · simpa [parseCHARSAux] using h2
            · right
              refine ⟨?_, ?_⟩
              · simp only [List.map_cons, List.flatten_cons,
                  RunItem.source, List.cons_append, List.nil_append]
                rw [← h1]
              · simpa [parseCHARSAux] using h2
      · by_cases hd : isDelim c = true
        · refine ⟨[], by simp, by simp [parseCHARSAux, hb, hd], Or.inl ⟨?_, Or.inr ⟨c, rest, ?_, hd⟩⟩⟩
          · simp [parseCHARSAux, hb, hd]
          · simp [parseCHARSAux, hb, hd]
        · obtain ⟨items, hok, htxt, hsrc⟩ := ih rest (by omega)
          refine ⟨.plain c :: items, ?_, ?_, ?_⟩
          · intro i hi
            rcases List.mem_cons.mp hi with h | h
            · subst h; simp [RunItem.ok, hd, hb]
            · exact hok i h
          · simp [parseCHARSAux, hb, hd, htxt, RunItem.text]
          · rcases hsrc with ⟨h1, h2⟩ | ⟨h1, h2⟩
            · left
              refine ⟨?_, ?_⟩
              · simp only [parseCHARSAux, if_neg hb, if_neg hd, List.map_cons, List.flatten_cons,
                  RunItem.source, List.cons_append, List.nil_append]
                rw [← h1]
              · simpa [parseCHARSAux, hb, hd] using h2
            · right
              refine ⟨?_, ?_⟩
              · simp only [List.map_cons, List.flatten_cons,
                  RunItem.source, List.cons_append, List.nil_append]
                rw [← h1]
              · simpa [parseCHARSAux, hb, hd] using h2

/-- C8: the bare-run scan `parseCHARS` splits the input into a run and the
cursor it leaves.  The run is a sequence of steps, each an unescaped character
that is neither a delimiter (space, tab, `"`, `#`, `[`, `]`, `=`, newline) nor a
backslash, or a backslash followed by any character; the returned text is the run
with each backslash dropped and the character after it kept verbatim; the run is
maximal: the cursor is at end of input or on an unescaped delimiter, which is
left unread (a lone backslash at end of input is consumed).  The four inputs of
`testParseCHARS` give `Bonjour` then, past the space, `monde!`; `To to`; `To`;
`To"to`. -/
theorem parseCHARS_maximal_run :
    (∀ input : List Char, ∃ items : List RunItem,
      (∀ i ∈ items, i.ok = true) ∧
      (parseCHARS input).1 = items.map RunItem.text ∧
      ((input = (items.map RunItem.source).flatten ++ (parseCHARS input).2 ∧
          ((parseCHARS input).2 = [] ∨
            ∃ d rest, (parseCHARS input).2 = d :: rest ∧ isDelim d = true)) ∨
        (input = (items.map RunItem.source).flatten ++ ['\\'] ∧
          (parseCHARS input).2 = []))) ∧
    parseCHARS "Bonjour monde!".toList = ("Bonjour".toList, " monde!".toList) ∧
    get " monde!".toList = (some ' ', "monde!".toList) ∧
    parseCHARS "monde!".toList = ("monde!".toList, []) ∧
    parseCHARS "To\\ to".toList = ("To to".toList, []) ∧
    parseCHARS "To\"to".toList = ("To".toList, "\"to".toList) ∧
    parseCHARS "To\\\"to".toList = ("To\"to".toList, []) :=
  ⟨fun input => parseCHARSAux_items input.length input (Nat.le_refl _),
    by decide, by decide, by decide, by decide, by decide, by decide⟩

end nut

/-! ## Generic configuration parser: properties -/

namespace nut

theorem find_upsert {V : Type} (k k' : List Char) (f : Option V → V)
    (m : List (List Char × V)) :
    find k (upsert k' f m) = if k = k' then some (f (find k' m)) else find k m := by
  induction m with
  | nil =>
    by_cases h : k = k'
    · subst h; simp [upsert, find]
    · have h' : ¬ k' = k := fun e => h e.symm
      simp [upsert, find, h, h']
  | cons a m ih =>
    obtain ⟨ka, va⟩ := a
    by_cases h1 : ka = k'
    · subst h1
      by_cases h : k = ka
      · subst h; simp [upsert, find]
      · have h' : ¬ ka = k := fun e => h e.symm
        simp [upsert, find, h, h']
    · by_cases h : k = k'
      · subst h
        simp [upsert, find, h1, ih]
      · by_cases h2 : ka = k
        · simp [upsert, find, h1, h, h2]
        · simp [upsert, find, h1, h, h2, ih]

/-- A section header leaves every variable as it is. -/
theorem lookup_applyLine_sectionHeader (st : ParserState) (name sec var : List Char) :
    (applyLine st (.sectionHeader name)).conf.lookup sec var = st.conf.lookup sec var := by
  simp only [applyLine, GenericConfiguration.lookup, find_upsert]
  by_cases h : sec = name
  · subst h
    cases hf : find sec st.conf.sections <;> simp [hf, find]
  · simp [h]

/-- A directive declares its variable in the current section and leaves every
other variable as it is. -/
theorem lookup_applyLine_directive (st : ParserState) (name : List Char)
    (values : List (List Char)) (comment : Option (List Char)) (sec var : List Char) :
    (applyLine st (.directive name values comment)).conf.lookup sec var =
      if st.current = sec ∧ name = var then
        some (declare values comment (st.conf.lookup sec var))
      else st.conf.lookup sec var := by
  simp only [applyLine, GenericConfiguration.lookup, find_upsert]
  by_cases h : sec = st.current
  · subst h
    by_cases h2 : var = name
    · subst h2
      cases hf : find st.current st.conf.sections <;> simp [hf, find, find_upsert]
    · have h2' : ¬ name = var := fun e => h2 e.symm
      cases hf : find st.current st.conf.sections <;> simp [hf, find, find_upsert, h2, h2']
  · have h' : ¬ st.current = sec := fun e => h e.symm
    simp [h, h']

/-- The values of a variable after a run of lines, from its values before and
the declarations of the lines. -/
theorem lookup_foldl_applyLine (ls : List Line) (st : ParserState) (sec var : List Char) :
    ((ls.foldl applyLine st).conf.lookup sec var).map ConfigValue.values =
      match (st.conf.lookup sec var).map ConfigValue.values, declarations sec var st.current ls with
      | none, [] => none
      | none, d :: ds => some (d :: ds).flatten
      | some vs, ds => some (vs ++ ds.flatten) := by
  induction ls generalizing st with
  | nil =>
    cases h : (st.conf.lookup sec var).map ConfigValue.values <;> simp [declarations, h]
  | cons l ls ih =>
    rw [List.foldl_cons, ih]
    cases l with
    | sectionHeader name =>
      rw [lookup_applyLine_sectionHeader]
      simp only [declarations, applyLine]
    | directive name values comment =>
      rw [lookup_applyLine_directive]
      by_cases h : st.current = sec ∧ name = var
      · simp only [if_pos h, declarations, applyLine]
        cases hl : st.conf.lookup sec var with
        | none =>
          cases hd : declarations sec var st.current ls <;> simp [declare, hd]
        | some v =>
          simp [declare]
      · simp only [if_neg h, declarations, applyLine]

set_option maxRecDepth 100000 in
theorem content_genericSample :
    (parseFromString genericSample).content =
      [("".toList, [("glovar1".toList, ["toto".toList]),
          ("glovar2".toList, ["truc bidule".toList])]),
       ("section1".toList, [("var1".toList, ["one value".toList]), ("var2".toList, [])]),
       ("section2".toList, [("var1".toList, ["other".toList, "value".toList]),
          ("var".toList, ["toto".toList])])] := by
  decide

/-- C2: for every document, a variable exists in a section of the store built by
`parseFromString` exactly when some line names it in that section, and its value
list is then the value tokens of those lines in order, one entry per token: a
line made of a name, an optional `=` and value tokens declares the texts of the
tokens (a quoted string is one entry, each bare word one), and a line holding
only a name declares no entry.  On the document of `testGenericConfigParser` the
store is `glovar1 = [toto]`, `glovar2 = [truc bidule]`; section1
`var1 = [one value]`, `var2 = []`; section2 `var1 = [other, value]` and, from the
line `var toto`, `var = [toto]`. -/
theorem parseFromString_values :
    (∀ text sec var : List Char,
      ((parseFromString text).lookup sec var).map ConfigValue.values =
        match declarations sec var [] (configLines text) with
        | [] => none
        | d :: ds => some (d :: ds).flatten) ∧
    (∀ (name eq : List Char) (vals : List Token) (comment : Option (List Char)),
      vals.all isValue = true →
        parseLine ⟨⟨.TOKEN_STRING, name⟩ :: vals, comment⟩ =
            some (.directive name (vals.map Token.str) comment) ∧
        parseLine ⟨⟨.TOKEN_STRING, name⟩ :: ⟨.TOKEN_EQUAL, eq⟩ :: vals, comment⟩ =
            some (.directive name (vals.map Token.str) comment)) ∧
    (parseFromString genericSample).content =
      [("".toList, [("glovar1".toList, ["toto".toList]),
          ("glovar2".toList, ["truc bidule".toList])]),
       ("section1".toList, [("var1".toList, ["one value".toList]), ("var2".toList, [])]),
       ("section2".toList, [("var1".toList, ["other".toList, "value".toList]),
          ("var".toList, ["toto".toList])])] := by
  refine ⟨?_, ?_, content_genericSample⟩
  · intro text sec var
    rw [parseFromString, lookup_foldl_applyLine]
    simp [ParserState.init, GenericConfiguration.lookup, find]
    cases declarations sec var [] (configLines text) <;> rfl
  · intro name eq vals comment hv
    constructor
    · cases vals with
      | nil => simp [parseLine, dropEqual]
      | cons v vs =>
        have hv1 : isValue v = true := by simp at hv; exact hv.1
        have hne : ¬ v.type = .TOKEN_EQUAL := by
          intro h; simp [isValue, h] at hv1
        simp only [parseLine, dropEqual, if_neg hne, if_true, hv]
    · simp only [parseLine, dropEqual, if_true, hv]

end nut

/-! ## Notify flags: properties -/

namespace nut

theorem foldl_or_eq (flagBit : List Char → Nat) (names : List (List Char)) (acc : Nat) :
    names.foldl (fun a name => a ||| flagBit name) acc =
      acc ||| (names.map flagBit).foldr (fun b r => b ||| r) 0 := by
  induction names generalizing acc with
  | nil => simp
  | cons n ns ih =>
    simp only [List.foldl_cons, List.map_cons, List.foldr_cons]
    rw [ih, Nat.lor_assoc]

theorem notifyFlagsOf_foldl (flagBit : List Char → Nat) (tokens : List (List Char))
    (acc : Nat) :
    tokens.foldl (fun a tok => (splitPlus tok).foldl (fun a name => a ||| flagBit name) a) acc =
      acc ||| flagsOr flagBit tokens := by
  induction tokens generalizing acc with
  | nil => simp [flagsOr]
  | cons t ts ih =>
    simp only [List.foldl_cons]
    rw [ih, foldl_or_eq]
    simp only [flagsOr, List.map_cons, List.flatten_cons, List.map_append, List.foldr_append]
    rw [Nat.lor_assoc]
    congr 1
    generalize (List.map flagBit (List.map splitPlus ts).flatten).foldr (fun b acc => b ||| acc) 0 = z
    induction (List.map flagBit (splitPlus t)) with
    | nil => simp
    | cons b bs ihb => simp only [List.foldr_cons]; rw [← ihb, Nat.lor_assoc]

/-- The nested loops of `notifyFlagsOf` compute the OR of all the flag bits. -/
theorem notifyFlagsOf_eq (flagBit : List Char → Nat) (tokens : List (List Char)) :
    notifyFlagsOf flagBit tokens = flagsOr flagBit tokens := by
  rw [notifyFlagsOf, notifyFlagsOf_foldl]
  simp

/-- One line sets the entry of the category it names and no other entry. -/
theorem applyNotifyFlag_eq {κ : Type} [DecidableEq κ] (typeOf : List Char → Option κ)
    (flagBit : List Char → Nat) (flags : κ → Option Nat) (l : Line) (k : κ) :
    applyNotifyFlag typeOf flagBit flags l k =
      match notifyFlagLine typeOf k l with
      | some toks => some (flagsOr flagBit toks)
      | none => flags k := by
  cases l with
  | sectionHeader name => simp [applyNotifyFlag, notifyFlagLine]
  | directive name values comment =>
    match values with
    | [] => simp [applyNotifyFlag, notifyFlagLine]
    | [_] => simp [applyNotifyFlag, notifyFlagLine]
    | cat :: tok :: toks =>
      simp only [applyNotifyFlag, notifyFlagLine]
      by_cases hn : name = NOTIFYFLAG
      · simp only [hn, if_true, true_and]
        cases ht : typeOf cat with
        | none => simp
        | some k0 =>
          by_cases hk : k = k0
          · subst hk; simp [notifyFlagsOf_eq]
          · have hk' : ¬ k0 = k := fun e => hk e.symm
            simp [hk, hk']
      · simp [hn]

theorem foldl_applyNotifyFlag {κ : Type} [DecidableEq κ] (typeOf : List Char → Option κ)
    (flagBit : List Char → Nat) (ls : List Line) (flags : κ → Option Nat) (k : κ) :
    ls.foldl (applyNotifyFlag typeOf flagBit) flags k =
      match (ls.filterMap (notifyFlagLine typeOf k)).getLast? with
      | some toks => some (flagsOr flagBit toks)
      | none => flags k := by
  induction ls generalizing flags with
  | nil => simp
  | cons l ls ih =>
    rw [List.foldl_cons, ih, applyNotifyFlag_eq, List.filterMap_cons]
    cases hl : notifyFlagLine typeOf k l with
    | none => simp
    | some toks =>
      simp only [List.getLast?_cons]
      cases hg : (List.filterMap (notifyFlagLine typeOf k) ls).getLast? <;> simp

set_option maxRecDepth 100000 in
theorem notifyFlags_upsmonSample :
    (UpsmonConfiguration.parseFromString NotifyTypeFromString NotifyFlagFromString
        upsmonSample).notifyFlags .NOTIFY_LOWBATT = some 3 ∧
    (UpsmonConfiguration.parseFromString NotifyTypeFromString NotifyFlagFromString
        upsmonSample).notifyFlags .NOTIFY_ONLINE = none := by
  decide

/-- C3: for every upsmon document and every table of categories and of flag
bits, `notifyFlags[k]` is set after `UpsmonConfiguration.parseFromString` exactly
when some `NOTIFYFLAG` line names the category `k`, and its value is then the
bitwise OR of the bit constants of every flag name in every `+`-joined token of
the last such line; a category that no line names stays unset.  On the document
of `testUpsmonConfigParser`, `NOTIFYFLAG LOWBATT SYSLOG+WALL` gives
`notifyFlags[LOWBATT]` set with value 3 and `notifyFlags[ONLINE]` unset. -/
theorem notifyFlags_spec :
    (∀ (κ : Type) [DecidableEq κ] (typeOf : List Char → Option κ)
        (flagBit : List Char → Nat) (text : List Char) (k : κ),
      (UpsmonConfiguration.parseFromString typeOf flagBit text).notifyFlags k =
        ((((configLines text).filterMap (notifyFlagLine typeOf k)).getLast?).map
          (flagsOr flagBit))) ∧
    (UpsmonConfiguration.parseFromString NotifyTypeFromString NotifyFlagFromString
        upsmonSample).notifyFlags .NOTIFY_LOWBATT = some 3 ∧
    (UpsmonConfiguration.parseFromString NotifyTypeFromString NotifyFlagFromString
        upsmonSample).notifyFlags .NOTIFY_ONLINE = none := by
  refine ⟨?_, notifyFlags_upsmonSample⟩
  intro κ _ typeOf flagBit text k
  simp only [UpsmonConfiguration.parseFromString]
  rw [foldl_applyNotifyFlag]
  cases (List.filterMap (notifyFlagLine typeOf k) (configLines text)).getLast? <;> rfl

end nut

/-! ## The driver controller: properties -/

namespace upsdrvctl

theorem readConf_append (calls : List Decl) (d : Decl) :
    readConf (calls ++ [d]) = do_upsconf_args d.1 d.2.1 d.2.2 (readConf calls) := by
  simp [readConf, List.foldl_append]

theorem updateUps_upsname (var val : String) (u : ups_t) :
    (updateUps var val u).upsname = u.upsname := by
  simp only [updateUps]
  split_ifs <;> rfl

theorem newUps_upsname (upsname var val : String) :
    (newUps upsname var val).upsname = upsname := by
  simp only [newUps]
  split_ifs <;> rfl

theorem newUps_sdorder (upsname var val : String) :
    (newUps upsname var val).sdorder = 0 := by
  simp only [newUps]
  split_ifs <;> rfl

theorem newUps_maxstartdelay (upsname var val : String) :
    (newUps upsname var val).maxstartdelay = -1 := by
  simp only [newUps]
  split_ifs <;> rfl

theorem updateUps_sdorder (var val : String) (u : ups_t) :
    (updateUps var val u).sdorder = if var = "sdorder" then atoi val else u.sdorder := by
  simp only [updateUps]
  split_ifs <;> rfl

theorem updateUps_maxstartdelay (var val : String) (u : ups_t) :
    (updateUps var val u).maxstartdelay =
      if var = "maxstartdelay" then atoi val else u.maxstartdelay := by
  simp only [updateUps]
  split_ifs <;> simp_all

/-- The names in the table after the walk: the old names, then the new name if
it was not there. -/
theorem walkTable_names (upsname var val : String) (m : Int) (table : List ups_t) :
    (walkTable upsname var val m table).1.map ups_t.upsname =
      if upsname ∈ table.map ups_t.upsname then table.map ups_t.upsname
      else table.map ups_t.upsname ++ [upsname] := by
  induction table with
  | nil => simp [walkTable, newUps_upsname]
  | cons u rest ih =>
    simp only [walkTable]
    by_cases h : u.upsname = upsname
    · simp [h, updateUps_upsname]
    · have h' : ¬ upsname = u.upsname := fun e => h e.symm
      simp only [if_neg h, List.map_cons, ih, List.mem_cons, h', false_or]
      split_ifs <;> simp

/-- The walk never lowers `maxsdorder`. -/
theorem walkTable_maxsdorder_le (upsname var val : String) (m : Int) (table : List ups_t) :
    m ≤ (walkTable upsname var val m table).2 := by
  induction table with
  | nil => simp [walkTable]
  | cons u rest ih =>
    simp only [walkTable]
    by_cases h : u.upsname = upsname
    · simp only [if_pos h]
      split_ifs with h2
      · exact le_of_lt h2.2
      · exact le_refl _
    · simp only [if_neg h]
      exact ih

/-- The walk keeps every `sdorder` at or below `maxsdorder`. -/
theorem walkTable_sdorder_le (upsname var val : String) (m : Int) (table : List ups_t)
    (h0 : 0 ≤ m) (hle : ∀ u ∈ table, u.sdorder ≤ m) :
    ∀ u ∈ (walkTable upsname var val m table).1,
      u.sdorder ≤ (walkTable upsname var val m table).2 := by
  induction table with
  | nil =>
    intro u hu
    simp only [walkTable, List.mem_singleton] at hu
    subst hu
    simp only [walkTable, newUps_sdorder]
    exact h0
  | cons a rest ih =>
    have hrest : ∀ u ∈ rest, u.sdorder ≤ m := fun u hu => hle u (List.mem_cons_of_mem _ hu)
    have ha : a.sdorder ≤ m := hle a (List.mem_cons_self _ _)
    by_cases h : a.upsname = upsname
    · intro u hu
      simp only [walkTable, if_pos h] at hu ⊢
      rcases List.mem_cons.mp hu with hu | hu
      · subst hu
        rw [updateUps_sdorder]
        by_cases hv : var = "sdorder"
        · simp only [hv, if_true, true_and]
          split_ifs with h2
          · exact le_refl _
          · exact not_lt.mp h2
        · simp only [hv, if_false, false_and]
          exact ha
      · have := hrest u hu
        split_ifs with h2
        · exact le_trans this (le_of_lt h2.2)
        · exact this
    · intro u hu
      simp only [walkTable, if_neg h] at hu ⊢
      rcases List.mem_cons.mp hu with hu | hu
      · subst hu
        exact le_trans ha (walkTable_maxsdorder_le upsname var val m rest)
      · exact ih hrest u hu

theorem Inv_init : Inv State.init := by
  simp [Inv, State.init]

theorem Inv_do_upsconf_args (upsname : Option String) (var val : String) (st : State)
    (h : Inv st) : Inv (do_upsconf_args upsname var val st) := by
  obtain ⟨h0, hle, hnd⟩ := h
  cases upsname with
  | none =>
    simp only [do_upsconf_args]
    split_ifs <;> exact ⟨h0, hle, hnd⟩
  | some name =>
    simp only [do_upsconf_args]
    refine ⟨le_trans h0 (walkTable_maxsdorder_le _ _ _ _ _),
      walkTable_sdorder_le _ _ _ _ _ h0 hle, ?_⟩
    simp only [walkTable_names]
    split_ifs with hm
    · exact hnd
    · rw [List.nodup_append]
      refine ⟨hnd, List.nodup_singleton _, ?_⟩
      intro a ha hb
      simp only [List.mem_singleton] at hb
      subst hb
      exact hm ha

/-- The invariant holds after every sequence of `do_upsconf_args` calls. -/
theorem Inv_readConf (calls : List Decl) : Inv (readConf calls) := by
  induction calls using List.reverseRecOn with
  | nil => exact Inv_init
  | append_singleton calls d ih =>
    rw [readConf_append]
    exact Inv_do_upsconf_args _ _ _ _ ih

theorem passes_succ (table : List ups_t) (n : Nat) :
    ((List.range (n + 1)).map
        (fun i : Nat => table.filter (fun ups => ups.sdorder = (i : Int)))).flatten =
      ((List.range n).map
        (fun i : Nat => table.filter (fun ups => ups.sdorder = (i : Int)))).flatten ++
      table.filter (fun ups => ups.sdorder = (n : Int)) := by
  simp [List.range_succ]

/-- The calls of the first `n` passes, restricted to one value of `sdorder`. -/
theorem passes_filter (table : List ups_t) (n : Nat) (k : Int) :
    (((List.range n).map
        (fun i : Nat => table.filter (fun ups => ups.sdorder = (i : Int)))).flatten).filter
        (fun ups => ups.sdorder = k) =
      if 0 ≤ k ∧ k < n then table.filter (fun ups => ups.sdorder = k) else [] := by
  induction n with
  | zero =>
    have : ¬ (0 ≤ k ∧ k < ((0 : Nat) : Int)) := by omega
    simp [this]
  | succ n ih =>
    rw [passes_succ, List.filter_append, ih, List.filter_filter]
    by_cases hk : k = (n : Int)
    · subst hk
      have h1 : ¬ ((0 : Int) ≤ (n : Int) ∧ (n : Int) < (n : Int)) := by omega
      have h2 : (0 : Int) ≤ (n : Int) ∧ (n : Int) < ((n + 1 : Nat) : Int) := by omega
      simp [h1, h2]
    · have hempty : table.filter (fun a => decide (a.sdorder = k) && decide (a.sdorder = (n : Int))) = [] := by
        rw [List.filter_eq_nil_iff]
        intro a _
        simp only [Bool.and_eq_true, decide_eq_true_eq, not_and]
        intro h1 h2
        exact hk (h1.symm.trans h2)
      rw [hempty, List.append_nil]
      by_cases h1 : 0 ≤ k ∧ k < (n : Int)
      · have h2 : 0 ≤ k ∧ k < ((n + 1 : Nat) : Int) := by omega
        rw [if_pos h1, if_pos h2]
      · have h2 : ¬ (0 ≤ k ∧ k < ((n + 1 : Nat) : Int)) := by omega
        rw [if_neg h1, if_neg h2]

theorem shutdownOrder_eq (st : State) :
    shutdownOrder st =
      ((List.range (st.maxsdorder + 1).toNat).map
        (fun i : Nat => st.upstable.filter (fun ups => ups.sdorder = (i : Int)))).flatten := rfl

/-- How many times a UPS of the table occurs in the shutdown order. -/
theorem shutdownOrder_count (st : State) (h : Inv st) (u : ups_t) (hu : u ∈ st.upstable) :
    (shutdownOrder st).count u = if 0 ≤ u.sdorder then 1 else 0 := by
  obtain ⟨h0, hle, hnd⟩ := h
  have hcount : st.upstable.count u = 1 :=
    List.count_eq_one_of_mem (List.Nodup.of_map _ hnd) hu
  have hf : (shutdownOrder st).count u =
      ((shutdownOrder st).filter (fun ups => ups.sdorder = u.sdorder)).count u := by
    rw [List.count_filter]
    simp
  rw [hf, shutdownOrder_eq, passes_filter]
  have hlt : u.sdorder < (((st.maxsdorder + 1).toNat : Nat) : Int) := by
    have := hle u hu
    omega
  by_cases hs : 0 ≤ u.sdorder
  · rw [if_pos ⟨hs, hlt⟩, if_pos hs, List.count_filter (by simp), hcount]
  · rw [if_neg (fun hh => hs hh.1), if_neg hs]
    simp

theorem shutdownOrder_subset (st : State) : ∀ u ∈ shutdownOrder st, u ∈ st.upstable := by
  intro u hu
  simp only [shutdownOrder, shutdownPass, List.mem_flatten, List.mem_map, List.mem_range] at hu
  obtain ⟨l, ⟨i, _, rfl⟩, hul⟩ := hu
  exact (List.mem_filter.mp hul).1

theorem wrapInt_of_range (z : Int) (h1 : -2147483648 ≤ z) (h2 : z ≤ 2147483647) :
    wrapInt z = z := by
  unfold wrapInt
  omega

theorem wrapInt_range (z : Int) : -2147483648 ≤ wrapInt z ∧ wrapInt z ≤ 2147483647 := by
  unfold wrapInt
  omega

theorem wrapInt_add (z k : Int) : wrapInt (wrapInt z + k) = wrapInt (z + k) := by
  unfold wrapInt
  omega

theorem callUntilExit_of_none (exits : ups_t → Bool) (l : List ups_t)
    (h : ∀ u ∈ l, exits u = false) : callUntilExit exits l = (l, false) := by
  induction l with
  | nil => rfl
  | cons a l ih =>
    have ha : exits a = false := h a (List.mem_cons_self _ _)
    simp only [callUntilExit, ha, Bool.false_eq_true, if_false,
      ih (fun u hu => h u (List.mem_cons_of_mem _ hu))]

/-- The calls of a walk are an initial part of the list walked. -/
theorem callUntilExit_prefix (exits : ups_t → Bool) (l : List ups_t) :
    (callUntilExit exits l).1 <+: l := by
  induction l with
  | nil => exact List.prefix_refl _
  | cons a l ih =>
    simp only [callUntilExit]
    split_ifs
    · exact ⟨l, rfl⟩
    · exact (List.prefix_cons_inj a).mpr ih

theorem callUntilExit_append (exits : ups_t → Bool) (l1 l2 : List ups_t) :
    callUntilExit exits (l1 ++ l2) =
      if (callUntilExit exits l1).2 then callUntilExit exits l1
      else ((callUntilExit exits l1).1 ++ (callUntilExit exits l2).1,
        (callUntilExit exits l2).2) := by
  induction l1 with
  | nil => simp [callUntilExit]
  | cons a l1 ih =>
    by_cases ha : exits a = true
    · simp [callUntilExit, ha]
    · rw [List.cons_append, callUntilExit, if_neg ha, ih, callUntilExit, if_neg ha]
      by_cases h1 : (callUntilExit exits l1).2 = true
      · simp only [h1, if_true]
      · simp only [h1, if_false, List.cons_append]
        rfl

theorem flatten_map_range_succ {α : Type} (f : Nat → List α) (n : Nat) :
    ((List.range (n + 1)).map f).flatten = ((List.range n).map f).flatten ++ f n := by
  simp [List.range_succ]

theorem flatten_map_range_succ_left {α : Type} (f : Nat → List α) (n : Nat) :
    ((List.range (n + 1)).map f).flatten =
      f 0 ++ ((List.range n).map (fun k => f (k + 1))).flatten := by
  rw [List.range_succ_eq_map]
  simp [List.map_map, Function.comp_def]

/-- With `maxsdorder` below `INT_MAX` the shutdown loop ends: from the value `i`
of the counter, with `n` passes left and more than `n` iterations granted, it
makes the calls of those passes up to the first call that ends the process. -/
theorem shutdownLoop_returns (exits : ups_t → Bool) (st : State)
    (hmax : st.maxsdorder < INT_MAX) (n : Nat) :
    ∀ (i : Int) (fuel : Nat), 0 ≤ i → i + n = st.maxsdorder + 1 → n < fuel →
      shutdownLoop exits st fuel i =
        ((callUntilExit exits
            ((List.range n).map (fun k => shutdownPass st.upstable (i + (k : Nat)))).flatten).1,
          if (callUntilExit exits
            ((List.range n).map (fun k => shutdownPass st.upstable (i + (k : Nat)))).flatten).2
          then .exited else .returned) := by
  simp only [INT_MAX] at hmax
  induction n with
  | zero =>
    intro i fuel _ hi hf
    cases fuel with
    | zero => omega
    | succ f =>
      have hgt : ¬ i ≤ st.maxsdorder := by omega
      simp [shutdownLoop, hgt, callUntilExit]
  | succ n ih =>
    intro i fuel h0 hi hf
    cases fuel with
    | zero => omega
    | succ f =>
      have hle : i ≤ st.maxsdorder := by omega
      have hw : wrapInt (i + 1) = i + 1 := wrapInt_of_range _ (by omega) (by omega)
      have ih' := ih (i + 1) f (by omega) (by push_cast at hi ⊢; omega) (by omega)
      have hfun : (fun k : Nat => shutdownPass st.upstable (i + ((k + 1 : Nat) : Int))) =
          (fun k : Nat => shutdownPass st.upstable (i + 1 + (k : Nat))) := by
        funext k
        congr 1
        push_cast
        omega
      rw [shutdownLoop, if_pos hle, hw, ih', flatten_map_range_succ_left, callUntilExit_append,
        hfun]
      simp only [Nat.cast_zero, add_zero]
      by_cases hp : (callUntilExit exits (shutdownPass st.upstable i)).2 = true
      · simp [hp]
      · simp [hp]

/-- With `maxsdorder = INT_MAX` the shutdown loop never ends: whatever the number
of iterations, it is still running, and its calls are those of the passes for
the successive wrapped values of the counter. -/
theorem shutdownLoop_overflow (st : State) (hmax : st.maxsdorder = 2147483647) (n : Nat) :
    ∀ i : Int, -2147483648 ≤ i → i ≤ 2147483647 →
      shutdownLoop (fun _ => false) st n i =
        (((List.range n).map
            (fun k => shutdownPass st.upstable (wrapInt (i + (k : Nat))))).flatten,
          .running) := by
  induction n with
  | zero => intro i _ _; rfl
  | succ n ih =>
    intro i h1 h2
    have hle : i ≤ st.maxsdorder := by omega
    have hr := wrapInt_range (i + 1)
    have hfun : (fun k : Nat => shutdownPass st.upstable (wrapInt (i + ((k + 1 : Nat) : Int)))) =
        (fun k : Nat => shutdownPass st.upstable (wrapInt (wrapInt (i + 1) + (k : Nat)))) := by
      funext k
      congr 1
      rw [wrapInt_add]
      congr 1
      push_cast
      omega
    rw [shutdownLoop, if_pos hle, callUntilExit_of_none _ _ (fun _ _ => rfl),
      ih (wrapInt (i + 1)) hr.1 hr.2, flatten_map_range_succ_left, hfun]
    simp only [Bool.false_eq_true, if_false, Nat.cast_zero, add_zero,
      wrapInt_of_range i h1 h2]

theorem send_all_drivers_shutdown (exits : ups_t → Bool) (fuel : Nat) (st : State)
    (h : st.upstable ≠ []) :
    send_all_drivers exits .shutdown_driver fuel st = shutdownLoop exits st fuel 0 := by
  simp [send_all_drivers, h]

theorem readConf_overflowCalls :
    (readConf overflowCalls).upstable =
        [⟨"b", some "x", none, 0, -1⟩, ⟨"a", some "y", none, 2147483647, -1⟩] ∧
      (readConf overflowCalls).maxsdorder = 2147483647 := by
  decide

/-- The calls of the shutdown loop on the table of `overflowCalls`, for any
number of iterations. -/
theorem shutdown_overflowCalls (n : Nat) :
    send_all_drivers (fun _ => false) .shutdown_driver n (readConf overflowCalls) =
      (((List.range n).map
          (fun k => shutdownPass (readConf overflowCalls).upstable
            (wrapInt (0 + (k : Nat))))).flatten, .running) := by
  rw [send_all_drivers_shutdown _ _ _ (by rw [readConf_overflowCalls.1]; simp)]
  exact shutdownLoop_overflow _ readConf_overflowCalls.2 n 0 (by omega) (by omega)

theorem pass_overflowCalls :
    shutdownPass (readConf overflowCalls).upstable (wrapInt (0 + ((0 : Nat) : Int))) =
        [⟨"b", some "x", none, 0, -1⟩] ∧
    shutdownPass (readConf overflowCalls).upstable (wrapInt (0 + ((2147483647 : Nat) : Int))) =
        [⟨"a", some "y", none, 2147483647, -1⟩] ∧
    shutdownPass (readConf overflowCalls).upstable (wrapInt (0 + ((4294967296 : Nat) : Int))) =
        [⟨"b", some "x", none, 0, -1⟩] := by
  decide

/-- C4 fails on the code: with a UPS `b` of `sdorder` 0 and a UPS `a` whose
`sdorder` is `INT_MAX = 2147483647`, the test `i <= maxsdorder` of the shutdown
loop never fails, so `send_all_drivers` never returns whatever the number of
iterations, and once `i++` has wrapped and come back to 0 (iteration 2^32)
`shutdown_driver` is called on `b` again, after it was called on `a`: the calls
are not in non-decreasing order of `sdorder`. -/
theorem shutdown_order_lost_at_INT_MAX :
    (readConf overflowCalls).upstable =
      [⟨"b", some "x", none, 0, -1⟩, ⟨"a", some "y", none, 2147483647, -1⟩] ∧
    (∀ fuel, (send_all_drivers (fun _ => false) .shutdown_driver fuel
      (readConf overflowCalls)).2 = .running) ∧
    (∃ earlier,
      (send_all_drivers (fun _ => false) .shutdown_driver (4294967296 + 1)
        (readConf overflowCalls)).1 = earlier ++ [⟨"b", some "x", none, 0, -1⟩] ∧
      (⟨"a", some "y", none, 2147483647, -1⟩ : ups_t) ∈ earlier) ∧
    ¬ (send_all_drivers (fun _ => false) .shutdown_driver (4294967296 + 1)
        (readConf overflowCalls)).1.Pairwise (fun a b => a.sdorder ≤ b.sdorder) := by
  have hsplit : (send_all_drivers (fun _ => false) .shutdown_driver (4294967296 + 1)
        (readConf overflowCalls)).1 =
      ((List.range 4294967296).map
          (fun k => shutdownPass (readConf overflowCalls).upstable
            (wrapInt (0 + (k : Nat))))).flatten ++ [⟨"b", some "x", none, 0, -1⟩] := by
    rw [shutdown_overflowCalls, flatten_map_range_succ, pass_overflowCalls.2.2]
  have hmem : (⟨"a", some "y", none, 2147483647, -1⟩ : ups_t) ∈
      ((List.range 4294967296).map
          (fun k => shutdownPass (readConf overflowCalls).upstable
            (wrapInt (0 + (k : Nat))))).flatten := by
    refine List.mem_flatten.mpr ⟨_, List.mem_map.mpr ⟨2147483647, List.mem_range.mpr (by omega),
      rfl⟩, ?_⟩
    rw [pass_overflowCalls.2.1]
    exact List.mem_singleton_self _
  refine ⟨readConf_overflowCalls.1, fun fuel => ?_, ⟨_, hsplit, hmem⟩, ?_⟩
  · rw [shutdown_overflowCalls]
  · rw [hsplit, List.pairwise_append]
    intro hp
    have := hp.2.2 _ hmem _ (List.mem_singleton_self _)
    exact absurd this (by decide)

/-- C5 as stated fails: a UPS declared with `sdorder = -1` is in the table, and
`send_all_drivers` with the shutdown command returns without a call of
`shutdown_driver` on it; and when `start_driver` ends the process on the first
UPS (its driver is not found), the second UPS is never started. -/
theorem send_all_drivers_shutdown_skips_negative :
    (readConf [(some "ups1", "driver", "dummy"), (some "ups1", "sdorder", "-1")]).upstable =
        [⟨"ups1", some "dummy", none, -1, -1⟩] ∧
    send_all_drivers (fun _ => false) .shutdown_driver 2
        (readConf [(some "ups1", "driver", "dummy"), (some "ups1", "sdorder", "-1")]) =
      ([], .returned) ∧
    send_all_drivers (fun ups => ups.upsname = "a") .start_driver 0 (readConf sampleCalls) =
      ([⟨"a", some "x", none, 2, -1⟩], .exited) := by
  decide

/-- C5 (amended): for every non-empty UPS table built by a sequence of
`do_upsconf_args` calls, `send_all_drivers` with the start or the stop command
calls the command on the UPSes of the table in table order, up to and including
the first call that ends the process, hence exactly once on every UPS when no
call ends the process; with the shutdown command, when `maxsdorder` is below
`INT_MAX`, it returns after calling `shutdown_driver` in the same way along the
shutdown order, which holds exactly once every UPS whose `sdorder` is not
negative and never a UPS whose `sdorder` is negative. -/
theorem send_all_drivers_coverage (calls : List Decl) (exits : ups_t → Bool) (fuel : Nat)
    (h : (readConf calls).upstable ≠ []) :
    (∀ command, command ≠ Command.shutdown_driver →
      send_all_drivers exits command fuel (readConf calls) =
          ((callUntilExit exits (readConf calls).upstable).1,
            if (callUntilExit exits (readConf calls).upstable).2 then .exited else .returned) ∧
        (callUntilExit exits (readConf calls).upstable).1 <+: (readConf calls).upstable ∧
        ((∀ u ∈ (readConf calls).upstable, exits u = false) →
          send_all_drivers exits command fuel (readConf calls) =
            ((readConf calls).upstable, .returned))) ∧
    (∀ u ∈ (readConf calls).upstable, (readConf calls).upstable.count u = 1) ∧
    ((readConf calls).maxsdorder < INT_MAX → ((readConf calls).maxsdorder + 1).toNat < fuel →
      send_all_drivers exits .shutdown_driver fuel (readConf calls) =
          ((callUntilExit exits (shutdownOrder (readConf calls))).1,
            if (callUntilExit exits (shutdownOrder (readConf calls))).2 then .exited
            else .returned) ∧
        (callUntilExit exits (shutdownOrder (readConf calls))).1 <+:
          shutdownOrder (readConf calls) ∧
        ((∀ u ∈ (readConf calls).upstable, exits u = false) →
          send_all_drivers exits .shutdown_driver fuel (readConf calls) =
            (shutdownOrder (readConf calls), .returned))) ∧
    (∀ u ∈ shutdownOrder (readConf calls), u ∈ (readConf calls).upstable) ∧
    (∀ u ∈ (readConf calls).upstable,
      (shutdownOrder (readConf calls)).count u = if 0 ≤ u.sdorder then 1 else 0) := by
  have hinv := Inv_readConf calls
  refine ⟨?_, ?_, ?_, shutdownOrder_subset _, fun u hu => shutdownOrder_count _ hinv u hu⟩
  · intro command hc
    refine ⟨by simp [send_all_drivers, h, hc], callUntilExit_prefix _ _, ?_⟩
    intro hex
    simp [send_all_drivers, h, hc, callUntilExit_of_none _ _ hex]
  · intro u hu
    exact List.count_eq_one_of_mem (List.Nodup.of_map _ hinv.2.2) hu
  · intro hmax hfuel
    have h0 := hinv.1
    have hloop := shutdownLoop_returns exits (readConf calls) hmax
      ((readConf calls).maxsdorder + 1).toNat 0 fuel (le_refl _) (by omega) hfuel
    have horder : ((List.range ((readConf calls).maxsdorder + 1).toNat).map
        (fun k => shutdownPass (readConf calls).upstable (0 + ((k : Nat) : Int)))).flatten =
        shutdownOrder (readConf calls) := by
      simp only [zero_add, shutdownOrder]
    rw [horder] at hloop
    rw [send_all_drivers_shutdown _ _ _ h, hloop]
    refine ⟨rfl, callUntilExit_prefix _ _, ?_⟩
    intro hex
    rw [callUntilExit_of_none _ _ (fun u hu => hex u (shutdownOrder_subset _ u hu))]
    simp

theorem send_all_drivers_coverage_witness :
    (readConf sampleCalls).upstable ≠ [] ∧
    (readConf sampleCalls).maxsdorder < INT_MAX ∧
    ((readConf sampleCalls).maxsdorder + 1).toNat < 4 ∧
    send_all_drivers (fun _ => false) .shutdown_driver 4 (readConf sampleCalls) =
      (shutdownOrder (readConf sampleCalls), .returned) ∧
    shutdownOrder (readConf sampleCalls) =
      [⟨"b", some "y", none, 0, -1⟩, ⟨"c", some "z", none, 1, -1⟩,
        ⟨"a", some "x", none, 2, -1⟩] :=
  ⟨by decide, by decide, by decide,
    ((send_all_drivers_coverage sampleCalls (fun _ => false) 4 (by decide)).2.2.1
      (by decide) (by decide)).2.2 (fun _ _ => rfl),
    by decide⟩

/-- C6 fails on the code: when the first declaration of a device is `sdorder`,
`do_upsconf_args` creates the record with `sdorder = 0` and drops the value, so
after `sdorder = 2`, `driver = dummy`, `port = auto` the record has `sdorder` 0
and not `atoi "2" = 2`; the same value declared after `driver` is kept. -/
theorem do_upsconf_args_drops_first_sdorder :
    (readConf [(some "ups1", "sdorder", "2"), (some "ups1", "driver", "dummy"),
        (some "ups1", "port", "auto")]).upstable =
      [⟨"ups1", some "dummy", some "auto", 0, -1⟩] ∧
    atoi "2" = 2 ∧
    lastDeclared (some "ups1") "sdorder"
      [(some "ups1", "sdorder", "2"), (some "ups1", "driver", "dummy"),
        (some "ups1", "port", "auto")] = some "2" ∧
    (readConf [(some "ups1", "driver", "dummy"), (some "ups1", "sdorder", "2"),
        (some "ups1", "port", "auto")]).upstable =
      [⟨"ups1", some "dummy", some "auto", 2, -1⟩] := by
  decide

/-- C10 fails on the code: after `sdorder = 2147483647` the two invariants hold
(`maxsdorder = INT_MAX ≥ 0` bounds every `sdorder`) but the shutdown loop
`for (i = 0; i <= maxsdorder; i++)` never ends, whatever the number of
iterations, and within its first 2^32 + 1 iterations it has reached the UPS `b`,
whose `sdorder` is 0, twice and not exactly once. -/
theorem shutdown_loop_repeats_at_INT_MAX :
    0 ≤ (readConf overflowCalls).maxsdorder ∧
    (∀ u ∈ (readConf overflowCalls).upstable,
      u.sdorder ≤ (readConf overflowCalls).maxsdorder) ∧
    (⟨"b", some "x", none, 0, -1⟩ : ups_t) ∈ (readConf overflowCalls).upstable ∧
    (∀ fuel, (send_all_drivers (fun _ => false) .shutdown_driver fuel
      (readConf overflowCalls)).2 = .running) ∧
    2 ≤ (send_all_drivers (fun _ => false) .shutdown_driver (4294967296 + 1)
      (readConf overflowCalls)).1.count ⟨"b", some "x", none, 0, -1⟩ := by
  have hinv := Inv_readConf overflowCalls
  refine ⟨hinv.1, hinv.2.1, by rw [readConf_overflowCalls.1]; decide, fun fuel => ?_, ?_⟩
  · rw [shutdown_overflowCalls]
  · rw [shutdown_overflowCalls, flatten_map_range_succ, pass_overflowCalls.2.2,
      List.count_append]
    have hmem : (⟨"b", some "x", none, 0, -1⟩ : ups_t) ∈
        ((List.range 4294967296).map
            (fun k => shutdownPass (readConf overflowCalls).upstable
              (wrapInt (0 + (k : Nat))))).flatten := by
      refine List.mem_flatten.mpr ⟨_, List.mem_map.mpr ⟨0, List.mem_range.mpr (by omega),
        rfl⟩, ?_⟩
      rw [pass_overflowCalls.1]
      exact List.mem_singleton_self _
    have h1 := List.count_pos_iff.mpr hmem
    have h2 : List.count (⟨"b", some "x", none, 0, -1⟩ : ups_t)
        [⟨"b", some "x", none, 0, -1⟩] = 1 := by decide
    omega

theorem lastDeclared_append (upsname : Option String) (var : String) (calls : List Decl)
    (d : Decl) :
    lastDeclared upsname var (calls ++ [d]) =
      if d.1 = upsname ∧ d.2.1 = var then some d.2.2 else lastDeclared upsname var calls := by
  simp only [lastDeclared, List.filter_append]
  by_cases h : d.1 = upsname ∧ d.2.1 = var
  · simp [h, List.filter_cons]
  · simp [h, List.filter_cons]

theorem firstVar_append (upsname : String) (calls : List Decl) (d : Decl) :
    firstVar upsname (calls ++ [d]) =
      match firstVar upsname calls with
      | some v => some v
      | none => if d.1 = some upsname then some d.2.1 else none := by
  simp only [firstVar, List.find?_append]
  cases h : List.find? (fun d => decide (d.1 = some upsname)) calls with
  | some x => simp
  | none =>
    by_cases hd : d.1 = some upsname
    · simp [hd, List.find?_cons]
    · simp [hd, List.find?_cons]

/-- The global `maxstartdelay` after a sequence of calls. -/
theorem readConf_maxstartdelay (calls : List Decl) :
    (readConf calls).maxstartdelay = globalTimer calls := by
  induction calls using List.reverseRecOn with
  | nil => simp [readConf, State.init, globalTimer, lastDeclared]
  | append_singleton calls d ih =>
    obtain ⟨name, var, val⟩ := d
    rw [readConf_append]
    simp only [globalTimer, lastDeclared_append] at ih ⊢
    cases name with
    | some n =>
      simp only [do_upsconf_args]
      simpa using ih
    | none =>
      by_cases hv : var = "maxstartdelay"
      · subst hv
        have hne : ¬ ("maxstartdelay" = "driverpath") := by decide
        simp only [do_upsconf_args, if_true, if_neg hne]
        rw [if_pos ⟨trivial, trivial⟩]
      · simp only [do_upsconf_args, if_neg hv, hv, and_false, if_false]
        split_ifs <;> exact ih

/-- The record of a name after the walk. -/
theorem walkTable_find (upsname var val : String) (m : Int) (table : List ups_t) (n : String) :
    (walkTable upsname var val m table).1.find? (fun u => u.upsname = n) =
      if n = upsname then
        some (match table.find? (fun u => u.upsname = upsname) with
          | some u => updateUps var val u
          | none => newUps upsname var val)
      else table.find? (fun u => u.upsname = n) := by
  induction table with
  | nil =>
    by_cases h : n = upsname
    · subst h; simp [walkTable, newUps_upsname]
    · have h' : ¬ upsname = n := fun e => h e.symm
      simp [walkTable, newUps_upsname, h, h']
  | cons a rest ih =>
    by_cases ha : a.upsname = upsname
    · by_cases h : n = upsname
      · subst h; simp [walkTable, ha, updateUps_upsname, List.find?_cons]
      · have h' : ¬ upsname = n := fun e => h e.symm
        simp [walkTable, ha, updateUps_upsname, List.find?_cons, h, h']
    · by_cases h : n = upsname
      · subst h
        simp [walkTable, ha, List.find?_cons, ih]
      · by_cases h2 : a.upsname = n
        · simp [walkTable, ha, List.find?_cons, h, h2]
        · simp [walkTable, ha, List.find?_cons, h, h2, ih]

theorem afterFirst_append (upsname : String) (calls : List Decl) (d : Decl) :
    afterFirst upsname (calls ++ [d]) =
      match firstVar upsname calls with
      | some _ => afterFirst upsname calls ++ [d]
      | none => [] := by
  induction calls with
  | nil =>
    by_cases hd : d.1 = some upsname
    · simp [afterFirst, firstVar, hd]
    · simp [afterFirst, firstVar, hd]
  | cons c calls ih =>
    by_cases hc : c.1 = some upsname
    · simp [afterFirst, firstVar, hc, List.find?_cons]
    · have : firstVar upsname (c :: calls) = firstVar upsname calls := by
        simp [firstVar, hc, List.find?_cons]
      rw [this, List.cons_append, afterFirst, if_neg hc, ih, afterFirst, if_neg hc]

/-- The record of a device after a sequence of calls: it exists exactly when a
call names the device, and its `maxstartdelay` is the last value declared for
the device after the call that created the record, or -1 if none is. -/
theorem readConf_find (calls : List Decl) (n : String) :
    match (readConf calls).upstable.find? (fun u => u.upsname = n) with
    | none => firstVar n calls = none
    | some u => firstVar n calls ≠ none ∧
        u.maxstartdelay =
          ((lastDeclared (some n) "maxstartdelay" (afterFirst n calls)).map atoi).getD (-1) := by
  induction calls using List.reverseRecOn with
  | nil => simp [readConf, State.init, firstVar]
  | append_singleton calls d ih =>
    obtain ⟨name, var, val⟩ := d
    rw [readConf_append, firstVar_append, afterFirst_append]
    cases name with
    | none =>
      have hst : (do_upsconf_args none var val (readConf calls)).upstable =
          (readConf calls).upstable := by
        simp only [do_upsconf_args]
        split_ifs <;> rfl
      simp only [hst]
      cases hf : (readConf calls).upstable.find? (fun u => u.upsname = n) with
      | none =>
        rw [hf] at ih
        simp [ih]
      | some u =>
        rw [hf] at ih
        cases hfv : firstVar n calls with
        | none => exact absurd hfv ih.1
        | some v =>
          simp only [lastDeclared_append]
          simpa using ih.2
    | some nm =>
      simp only [do_upsconf_args, walkTable_find]
      by_cases hn : n = nm
      · subst hn
        simp only [if_true]
        cases hf : (readConf calls).upstable.find? (fun u => u.upsname = n) with
        | none =>
          rw [hf] at ih
          simp only [ih, if_true]
          refine ⟨by simp, ?_⟩
          rw [newUps_maxstartdelay]
          rfl
        | some u =>
          rw [hf] at ih
          cases hfv : firstVar n calls with
          | none => exact absurd hfv ih.1
          | some v =>
            refine ⟨by simp, ?_⟩
            simp only [lastDeclared_append, true_and]
            rw [updateUps_maxstartdelay]
            by_cases hvar : var = "maxstartdelay"
            · simp [hvar]
            · simp [hvar, ih.2]
      · have hn' : ¬ some nm = some n := fun e => hn (Option.some.inj e).symm
        simp only [if_neg hn, hn', if_false]
        cases hf : (readConf calls).upstable.find? (fun u => u.upsname = n) with
        | none =>
          rw [hf] at ih
          simp [ih]
        | some u =>
          rw [hf] at ih
          cases hfv : firstVar n calls with
          | none => exact absurd hfv ih.1
          | some v =>
            simp only [lastDeclared_append, hn', false_and, if_false]
            simpa using ih.2

/-- In a table with pairwise distinct names, the record found under the name of a
record is that record. -/
theorem find_of_mem (table : List ups_t) (hnd : (table.map ups_t.upsname).Nodup)
    (u : ups_t) (hu : u ∈ table) :
    table.find? (fun x => x.upsname = u.upsname) = some u := by
  induction table with
  | nil => simp at hu
  | cons a rest ih =>
    simp only [List.map_cons, List.nodup_cons] at hnd
    rcases List.mem_cons.mp hu with h | h
    · subst h; simp [List.find?_cons]
    · have hne : ¬ a.upsname = u.upsname := by
        intro e
        exact hnd.1 (e ▸ List.mem_map_of_mem _ h)
      simp [List.find?_cons, hne, ih hnd.2 h]

/-- C7 as stated fails: a device whose last declared `maxstartdelay` is -1 gets
the global timer, here the default 45 seconds, and not the value declared. -/
theorem forkexec_timer_minus_one :
    (readConf [(some "ups1", "driver", "dummy"),
        (some "ups1", "maxstartdelay", "-1")]).upstable =
      [⟨"ups1", some "dummy", none, 0, -1⟩] ∧
    forkexecAlarm
      (readConf [(some "ups1", "driver", "dummy"), (some "ups1", "maxstartdelay", "-1")])
      ⟨"ups1", some "dummy", none, 0, -1⟩ = 45 ∧
    atoi "-1" = -1 ∧
    declaredTimer [(some "ups1", "driver", "dummy"), (some "ups1", "maxstartdelay", "-1")]
      "ups1" = 4294967295 := by
  decide

/-- C7 (amended): for every sequence of `do_upsconf_args` calls and every UPS of
the resulting table whose last per-device `maxstartdelay` declaration, if it has
one, comes after its first declaration in the sequence, the number of seconds
that `forkexec` arms with `alarm` for that UPS is the following `int`, converted
to `unsigned int`: the value that `atoi` reads from the last per-device
`maxstartdelay` declared for it if there is one and it is not -1, otherwise the
value that `atoi` reads from the last global `maxstartdelay` declared, otherwise
the default 45. -/
theorem forkexec_timer (calls : List Decl) (u : ups_t)
    (hu : u ∈ (readConf calls).upstable)
    (hlast : lastDeclared (some u.upsname) "maxstartdelay" calls =
      lastDeclared (some u.upsname) "maxstartdelay" (afterFirst u.upsname calls)) :
    forkexecAlarm (readConf calls) u = startupTimer calls u.upsname := by
  have hfind := find_of_mem _ (Inv_readConf calls).2.2 u hu
  have hrec := readConf_find calls u.upsname
  rw [hfind] at hrec
  have hm := hrec.2
  rw [← hlast] at hm
  simp only [forkexecAlarm, startupTimer, readConf_maxstartdelay]
  cases hl : lastDeclared (some u.upsname) "maxstartdelay" calls with
  | none =>
    rw [hl] at hm
    simp at hm
    simp [hm]
  | some v =>
    rw [hl] at hm
    simp at hm
    simp [hm]

theorem forkexec_timer_witness :
    (⟨"ups1", some "dummy", none, 0, 20⟩ : ups_t) ∈ (readConf sampleDelays).upstable ∧
    lastDeclared (some "ups1") "maxstartdelay" sampleDelays =
      lastDeclared (some "ups1") "maxstartdelay" (afterFirst "ups1" sampleDelays) ∧
    forkexecAlarm (readConf sampleDelays) ⟨"ups1", some "dummy", none, 0, 20⟩ =
      startupTimer sampleDelays "ups1" ∧
    startupTimer sampleDelays "ups1" = 20 ∧
    startupTimer sampleDelays "ups2" = 30 :=
  ⟨by decide, by decide,
    forkexec_timer sampleDelays ⟨"ups1", some "dummy", none, 0, 20⟩ (by decide) (by decide),
    by decide, by decide⟩

/-- The walk changes no record but the first one with the name, and keeps every
name in place. -/
theorem walkTable_update (upsname var val : String) (m : Int) (table : List ups_t)
    (h : upsname ∈ table.map ups_t.upsname) :
    List.Forall₂ (fun old new => new.upsname = old.upsname ∧ (old.upsname ≠ upsname → new = old))
      table (walkTable upsname var val m table).1 := by
  induction table with
  | nil => simp at h
  | cons a rest ih =>
    by_cases ha : a.upsname = upsname
    · simp only [walkTable, if_pos ha]
      refine List.Forall₂.cons ⟨updateUps_upsname _ _ _, fun hne => absurd ha hne⟩ ?_
      exact List.forall₂_same.mpr (fun x _ => ⟨rfl, fun _ => rfl⟩)
    · simp only [walkTable, if_neg ha]
      have h' : upsname ∈ rest.map ups_t.upsname := by
        simp only [List.map_cons, List.mem_cons] at h
        rcases h with h | h
        · exact absurd h.symm ha
        · exact h
      exact List.Forall₂.cons ⟨rfl, fun _ => rfl⟩ (ih h')

/-- The walk appends one record with the name when no record has it. -/
theorem walkTable_append (upsname var val : String) (m : Int) (table : List ups_t)
    (h : upsname ∉ table.map ups_t.upsname) :
    (walkTable upsname var val m table).1 = table ++ [newUps upsname var val] := by
  induction table with
  | nil => rfl
  | cons a rest ih =>
    simp only [List.map_cons, List.mem_cons, not_or] at h
    have ha : ¬ a.upsname = upsname := fun e => h.1 e.symm
    simp only [walkTable, if_neg ha, ih h.2, List.cons_append]

theorem firstOccurrences_append (names : List String) (n : String) :
    firstOccurrences (names ++ [n]) =
      if n ∈ firstOccurrences names then firstOccurrences names
      else firstOccurrences names ++ [n] := by
  simp [firstOccurrences, List.foldl_append]

/-- The names of the table are the device names of the calls, in the order of
their first occurrence. -/
theorem readConf_names (calls : List Decl) :
    (readConf calls).upstable.map ups_t.upsname =
      firstOccurrences (calls.filterMap (fun d => d.1)) := by
  induction calls using List.reverseRecOn with
  | nil => rfl
  | append_singleton calls d ih =>
    obtain ⟨name, var, val⟩ := d
    rw [readConf_append]
    cases name with
    | none =>
      have hst : (do_upsconf_args none var val (readConf calls)).upstable =
          (readConf calls).upstable := by
        simp only [do_upsconf_args]
        split_ifs <;> rfl
      simp only [hst, ih, List.filterMap_append, List.filterMap_cons, List.filterMap_nil,
        List.append_nil]
    | some n =>
      simp only [do_upsconf_args, walkTable_names, List.filterMap_append, List.filterMap_cons,
        List.filterMap_nil, firstOccurrences_append, ih]

/-- C11: after every sequence of `do_upsconf_args` calls the `upsname` fields of
the records of the table are pairwise distinct and the records are in the order
of the first occurrence of their names; a call with a null `upsname` leaves the
table unchanged; a call with a non-null `upsname` either changes only the one
record with that name, every record keeping its name and its place, or, when no
record has the name, appends exactly one new record with that name at the tail
and leaves the records before it as they are. -/
theorem upstable_invariant (calls : List Decl) (var val : String) :
    ((readConf calls).upstable.map ups_t.upsname).Nodup ∧
    (readConf calls).upstable.map ups_t.upsname =
      firstOccurrences (calls.filterMap (fun d => d.1)) ∧
    (∀ u ∈ (readConf calls).upstable, send_one_driver u.upsname (readConf calls) = some u) ∧
    (do_upsconf_args none var val (readConf calls)).upstable = (readConf calls).upstable ∧
    (∀ upsname : String,
      (upsname ∈ (readConf calls).upstable.map ups_t.upsname →
        List.Forall₂
          (fun old new => new.upsname = old.upsname ∧ (old.upsname ≠ upsname → new = old))
          (readConf calls).upstable
          (do_upsconf_args (some upsname) var val (readConf calls)).upstable) ∧
      (upsname ∉ (readConf calls).upstable.map ups_t.upsname →
        ∃ tmp, tmp.upsname = upsname ∧
          (do_upsconf_args (some upsname) var val (readConf calls)).upstable =
            (readConf calls).upstable ++ [tmp])) := by
  refine ⟨(Inv_readConf calls).2.2, readConf_names calls, ?_, ?_, ?_⟩
  · intro u hu
    exact find_of_mem _ (Inv_readConf calls).2.2 u hu
  · simp only [do_upsconf_args]
    split_ifs <;> rfl
  · intro upsname
    refine ⟨fun h => ?_, fun h => ?_⟩
    · simp only [do_upsconf_args]
      exact walkTable_update _ _ _ _ _ h
    · refine ⟨newUps upsname var val, newUps_upsname _ _ _, ?_⟩
      simp only [do_upsconf_args]
      exact walkTable_append _ _ _ _ _ h

theorem dfn_eq (SMALLBUF : Nat) (driverpath driver : String)
    (h : (cstring driverpath ++ cstring "/" ++ cstring driver).length < SMALLBUF) :
    dfn SMALLBUF (some driverpath) (some driver) =
      cstring driverpath ++ cstring "/" ++ cstring driver := by
  simp only [dfn, printed, Option.getD_some]
  exact List.take_of_length_le (by omega)

theorem cstring_replicate (n : Nat) :
    cstring (String.mk (List.replicate n 'a')) = List.replicate n 97 := by
  simp only [cstring]
  induction n with
  | zero => rfl
  | succ n ih =>
    rw [List.replicate_succ, List.replicate_succ, ← ih]
    rfl

/-- C12 as stated fails: `argv[0]` is the buffer `dfn`, which holds only the
first `SMALLBUF - 1` bytes of `driverpath/driver`, so for every size of the
buffer a `driverpath` of that many bytes gives an `argv[0]` that is not
`driverpath/driver` (with an 8-byte buffer `/lib/nut/dummy-ups` is cut to
`/lib/nu`, in `start_driver` and in `shutdown_driver`); and when `stat` does not
find the driver `start_driver` exits and builds no argument vector. -/
theorem argv0_truncated :
    (∀ SMALLBUF : Nat,
      dfn SMALLBUF (some (String.mk (List.replicate SMALLBUF 'a'))) (some "drv") ≠
        cstring (String.mk (List.replicate SMALLBUF 'a')) ++ cstring "/" ++ cstring "drv") ∧
    start_driver 8 true ⟨[], 0, 45, some "/lib/nut"⟩ none none
        ⟨"ups1", some "dummy-ups", none, 0, -1⟩ =
      .ok [some (cstring "/lib/nu"), some (cstring "-a"), some (cstring "ups1"), none] ∧
    shutdown_driver 8 ⟨[], 0, 45, some "/lib/nut"⟩ none none
        ⟨"ups1", some "dummy-ups", none, 0, -1⟩ =
      .ok [some (cstring "/lib/nu"), some (cstring "-a"), some (cstring "ups1"),
        some (cstring "-k"), none] ∧
    cstring "/lib/nu" ≠ cstring "/lib/nut" ++ cstring "/" ++ cstring "dummy-ups" ∧
    start_driver 8 false ⟨[], 0, 45, some "/lib/nut"⟩ none none
        ⟨"ups1", some "dummy-ups", none, 0, -1⟩ = .error .fatal := by
  refine ⟨?_, rfl, rfl, by decide, rfl⟩
  intro SMALLBUF heq
  have hlen := congrArg List.length heq
  have htake : (dfn SMALLBUF (some (String.mk (List.replicate SMALLBUF 'a')))
      (some "drv")).length ≤ SMALLBUF - 1 := by
    simp only [dfn]
    exact List.length_take_le _ _
  have h1 : (cstring "/").length = 1 := by decide
  have h2 : (cstring "drv").length = 3 := by decide
  rw [cstring_replicate] at hlen
  simp only [List.length_append, List.length_replicate, h1, h2] at hlen
  omega

/-- C12 (amended): for every combination of the chroot path `pt_root` and the
user `pt_user` being given or absent, `start_driver`, once `stat` finds the
driver (it exits otherwise), builds the argument vector `dfn`, `-a`, `upsname`,
then `-r`, `pt_root` iff `pt_root` is given, then `-u`, `pt_user` iff `pt_user`
is given, then a terminating NULL, in at most 8 slots of its 8-slot array;
`shutdown_driver` builds the same vector with `-k` right after `upsname`, in at
most 9 slots of its 9-slot array; no write is out of bounds.  The buffer `dfn`
holds the first `SMALLBUF - 1` bytes of `driverpath/driver`, which is all of it
when it is shorter than `SMALLBUF` bytes. -/
theorem argv_in_bounds (SMALLBUF : Nat) (st : State) (pt_root pt_user : Option String)
    (ups : ups_t) :
    start_driver SMALLBUF true st pt_root pt_user ups =
      .ok ([some (dfn SMALLBUF st.driverpath ups.driver), some (cstring "-a"),
          some (cstring ups.upsname)] ++ passthrough pt_root pt_user ++ [none]) ∧
    ([some (dfn SMALLBUF st.driverpath ups.driver), some (cstring "-a"),
        some (cstring ups.upsname)] ++ passthrough pt_root pt_user ++ [none]).length ≤ 8 ∧
    start_driver SMALLBUF false st pt_root pt_user ups = .error .fatal ∧
    shutdown_driver SMALLBUF st pt_root pt_user ups =
      .ok ([some (dfn SMALLBUF st.driverpath ups.driver), some (cstring "-a"),
          some (cstring ups.upsname), some (cstring "-k")] ++
        passthrough pt_root pt_user ++ [none]) ∧
    ([some (dfn SMALLBUF st.driverpath ups.driver), some (cstring "-a"),
        some (cstring ups.upsname), some (cstring "-k")] ++
      passthrough pt_root pt_user ++ [none]).length ≤ 9 ∧
    (∀ driverpath driver : String, st.driverpath = some driverpath →
      ups.driver = some driver →
      dfn SMALLBUF st.driverpath ups.driver =
          (cstring driverpath ++ cstring "/" ++ cstring driver).take (SMALLBUF - 1) ∧
        ((cstring driverpath ++ cstring "/" ++ cstring driver).length < SMALLBUF →
          dfn SMALLBUF st.driverpath ups.driver =
            cstring driverpath ++ cstring "/" ++ cstring driver)) := by
  refine ⟨?_, ?_, ?_, ?_, ?_, ?_⟩
  · cases pt_root <;> cases pt_user <;> rfl
  · cases pt_root <;> cases pt_user <;> simp [passthrough]
  · rfl
  · cases pt_root <;> cases pt_user <;> rfl
  · cases pt_root <;> cases pt_user <;> simp [passthrough]
  · intro driverpath driver h1 h2
    rw [h1, h2]
    exact ⟨rfl, fun h3 => dfn_eq SMALLBUF driverpath driver h3⟩

end upsdrvctl
